import Mathlib

/-!
Verification development for `singularity_scan.py`, a scanner for exact
vector clones and near-clones across JSON record files.

Shallow embedding conventions:
* Python floats are modelled by `PyFloat`: either an exact rational
  (`fin q`, idealizing IEEE-754 arithmetic as exact rational arithmetic)
  or one of the non-finite values `nan`, `inf`, `ninf`.
* Parsed JSON values are modelled by `PyVal`.
* `random.Random(47).random()` is a fixed deterministic sequence of
  values in `[0,1)`; it is modelled by an explicit sequence parameter
  `rng : Nat -> Rat` consumed in call order (the scanner only relies on
  the sequence being fixed for a run, which every fixed `rng` is).
* `hashlib.sha256(...).hexdigest()` applied to the serialized component
  strings is modelled by the serialization string itself: the digest is
  determined by that string, and the spec assumes digest collisions
  between distinct serializations are negligible, so the partition of
  records induced by the modelled key is the partition induced by the
  digest under that assumption.
* `math.sqrt` and true cosine values live in `Real`; the executable
  scanner uses a decidable threshold test proved equivalent to the
  `Real`-valued comparison on finite vectors.
-/

attribute [local semireducible] Rat.add Rat.mul Rat.sub Rat.inv Rat.ofScientific

/-- Model of a Python float: an exact rational, or one of nan / +inf / -inf. -/
inductive PyFloat where
  | fin (q : ℚ)
  | nan
  | inf
  | ninf
deriving DecidableEq, Repr

/-- IEEE-754 addition on the float model (finite addition idealized as exact). -/
def pyAdd : PyFloat → PyFloat → PyFloat
  | .fin x, .fin y => .fin (x + y)
  | .nan, _ => .nan
  | _, .nan => .nan
  | .inf, .ninf => .nan
  | .ninf, .inf => .nan
  | .inf, _ => .inf
  | _, .inf => .inf
  | .ninf, _ => .ninf
  | _, .ninf => .ninf

/-- IEEE-754 multiplication on the float model (finite product idealized as exact). -/
def pyMul : PyFloat → PyFloat → PyFloat
  | .fin x, .fin y => .fin (x * y)
  | .nan, _ => .nan
  | _, .nan => .nan
  | .inf, .inf => .inf
  | .inf, .ninf => .ninf
  | .ninf, .inf => .ninf
  | .ninf, .ninf => .inf
  | .inf, .fin y => if 0 < y then .inf else if y < 0 then .ninf else .nan
  | .fin x, .inf => if 0 < x then .inf else if x < 0 then .ninf else .nan
  | .ninf, .fin y => if 0 < y then .ninf else if y < 0 then .inf else .nan
  | .fin x, .ninf => if 0 < x then .ninf else if x < 0 then .inf else .nan

/-- IEEE-754 comparison `a >= b` on the float model; any comparison with nan is false. -/
def pyGe : PyFloat → PyFloat → Bool
  | .fin x, .fin y => y ≤ x
  | .nan, _ => false
  | _, .nan => false
  | .inf, _ => true
  | _, .inf => false
  | .ninf, .ninf => true
  | .ninf, _ => false
  | .fin _, .ninf => true

/-- Whether a modelled float is finite. -/
def PyFloat.isFin : PyFloat → Bool
  | .fin _ => true
  | _ => false

/-- Model of a non-list parsed JSON value: a string, a number (JSON ints
and floats both become `anum`), a boolean, or `None`. -/
inductive PyAtom where
  | astr (s : String)
  | anum (f : PyFloat)
  | abool (b : Bool)
  | anone
deriving DecidableEq, Repr

/-- Model of a parsed JSON value as seen by the Python code: an atom or a
list of atoms.  `pnone` also stands for an absent field (`dict.get`).
Nested lists inside a vector behave exactly like `None` there (`float`
raises on both), so list entries are restricted to atoms; JSON objects
are not needed by any claim and are omitted. -/
inductive PyVal where
  | pstr (s : String)
  | pnum (f : PyFloat)
  | pbool (b : Bool)
  | pnone
  | plist (l : List PyAtom)
deriving DecidableEq, Repr

/-- Python truthiness, as used by `if not gid`. -/
def truthy : PyVal → Bool
  | .pstr s => !(s == "")
  | .pnum (.fin q) => if q = 0 then false else true
  | .pnum _ => true
  | .pbool b => b
  | .pnone => false
  | .plist l => !l.isEmpty

/-- Numeric value of a digit string. -/
def digitsVal (cs : List Char) : ℕ := cs.foldl (fun a c => a * 10 + (c.toNat - 48)) 0

/-- Model of Python `float(s)` on strings, restricted to plain decimal
notation `[+-]digits[.digits]`.  Exponent notation, surrounding
whitespace and the strings "inf"/"infinity"/"nan" that Python would also
accept are not modelled; no claim exercises string-valued vector entries. -/
def parseFloatStr (s : String) : Option PyFloat :=
  let cs := s.toList
  let sgncs : ℚ × List Char :=
    match cs with
    | '-' :: t => (-1, t)
    | '+' :: t => (1, t)
    | t => (1, t)
  match sgncs.2.splitOn '.' with
  | [ip] =>
      if ip ≠ [] ∧ ip.all Char.isDigit then some (.fin (sgncs.1 * digitsVal ip)) else none
  | [ip, fp] =>
      if (ip ≠ [] ∨ fp ≠ []) ∧ ip.all Char.isDigit ∧ fp.all Char.isDigit then
        some (.fin (sgncs.1 * ((digitsVal ip : ℚ) + (digitsVal fp : ℚ) / (10 : ℚ) ^ fp.length)))
      else none
  | _ => none

/-- Model of Python `float(x)` on a vector entry: numbers convert to
themselves (nan and infinities included!), booleans to 0/1, strings by
parsing; `None` raises, modelled by `none`. -/
def py_float : PyAtom → Option PyFloat
  | .anum f => some f
  | .abool b => some (.fin (if b then 1 else 0))
  | .astr s => parseFloatStr s
  | .anone => none

/-- Number of decimal digits, computed with explicit fuel so that the
kernel can evaluate it on literals (64 digits is ample for every value
any claim touches). -/
def dig10 : ℕ → ℕ → ℕ
  | 0, _ => 0
  | fuel + 1, n => if n < 10 then 1 else dig10 fuel (n / 10) + 1

/-- Number of decimal digits of a natural number. -/
def digits10 (n : ℕ) : ℕ := dig10 64 n

/-- Decimal exponent of a positive rational: the unique `e` with
`10^e ≤ q < 10^(e+1)` (for the magnitudes the fuel of `digits10` covers). -/
def decExp (q : ℚ) : ℤ :=
  let a := q.num.natAbs
  let b := q.den
  let da := digits10 a
  let db := digits10 b
  if b * 10 ^ da ≤ a * 10 ^ db then (da : ℤ) - db else (da : ℤ) - db - 1

/-- Integer power of ten as a rational, for arbitrary integer exponent. -/
def pow10 (k : ℤ) : ℚ :=
  if 0 ≤ k then ((10 ^ k.toNat : ℕ) : ℚ) else ((10 ^ (-k).toNat : ℕ) : ℚ)⁻¹

/-- Round-half-even to an integer, the rounding used when converting a
binary float to a shortest decimal form. -/
def rhe (q : ℚ) : ℤ :=
  let f := ⌊q⌋
  let r := q - f
  if r < 1 / 2 then f else if 1 / 2 < r then f + 1 else if f % 2 = 0 then f else f + 1

/-- Mantissa (p decimal digits) and decimal exponent of a positive
rational rounded to `p` significant figures, renormalized when rounding
overflows to the next power of ten. -/
def sigMant (p : ℕ) (q : ℚ) : ℤ × ℤ :=
  let e := decExp q
  let m := rhe (q * pow10 ((p : ℤ) - 1 - e))
  if m = 10 ^ p then ((10 : ℤ) ^ (p - 1), e + 1) else (m, e)

/-- Value of a rational rounded to `p` significant decimal figures; this
is the value produced by `float(f"{x:.{p}g}")` in the exact-rational
idealization of floats. -/
def sigRound (p : ℕ) (q : ℚ) : ℚ :=
  if q = 0 then 0
  else
    let s : ℚ := if q < 0 then -1 else 1
    let me := sigMant p |q|
    s * (me.1 : ℚ) * pow10 (me.2 - (p : ℤ) + 1)

/-- Strip trailing zero digits. -/
def stripZeros (cs : List Char) : List Char :=
  (cs.reverse.dropWhile (fun c => c = '0')).reverse

/-- Decimal digit characters of a natural number (fuel-based so the
kernel evaluates it on literals). -/
def natToRevDigits : ℕ → ℕ → List Char
  | 0, _ => []
  | fuel + 1, n => if n = 0 then [] else Char.ofNat (48 + n % 10) :: natToRevDigits fuel (n / 10)

/-- Decimal digit string of a natural number. -/
def natDigits (n : ℕ) : List Char :=
  if n = 0 then ['0'] else (natToRevDigits 64 n).reverse

/-- Characters of the C `%.{p}g` rendering of a positive rational:
round to `p` significant figures, strip trailing zeros, and use fixed
notation when the decimal exponent lies in `[-4, p)`, exponent notation
otherwise. -/
def fmtPosG (p : ℕ) (q : ℚ) : List Char :=
  let me := sigMant p q
  let m := me.1.toNat
  let e := me.2
  let ds0 := stripZeros (natDigits m)
  let ds := if ds0 = [] then ['0'] else ds0
  if -4 ≤ e ∧ e < (p : ℤ) then
    if 0 ≤ e then
      let il := e.toNat + 1
      if ds.length ≤ il then ds ++ List.replicate (il - ds.length) '0'
      else ds.take il ++ '.' :: ds.drop il
    else
      '0' :: '.' :: (List.replicate (-(e + 1)).toNat '0' ++ ds)
  else
    let mant :=
      match ds with
      | [] => ['0']
      | [d] => [d]
      | d :: rest => d :: '.' :: rest
    let ea := e.natAbs
    let es := if ea < 10 then '0' :: natDigits ea else natDigits ea
    mant ++ (if 0 ≤ e then ['e', '+'] else ['e', '-']) ++ es

/-- Model of Python `"{:.{p}g}".format(x)` on the float model. -/
def fmtG (p : ℕ) (f : PyFloat) : String :=
  match f with
  | .fin q =>
      if q = 0 then "0"
      else if q < 0 then "-" ++ String.mk (fmtPosG p (-q))
      else String.mk (fmtPosG p q)
  | .nan => "nan"
  | .inf => "inf"
  | .ninf => "-inf"

/-- Precision constant `PREC` of the source. -/
def PREC : ℕ := 17

/-- Cosine threshold constant `NEAR_THRESH` of the source. -/
def NEAR_THRESH : ℚ := 0.9995

/-- Number of random projections, constant `N_PROJ` of the source. -/
def N_PROJ : ℕ := 12

/-- Source `round_vec(v, p)`: keep about `p` significant figures per
element via `float(f"{x:.{p}g}")`.  On the float model, formatting and
reparsing a finite value yields its `p`-significant-figure rounding, and
maps each non-finite value to itself. -/
def round_vec (v : List PyFloat) (p : ℕ := PREC) : List PyFloat :=
  v.map (fun x =>
    match x with
    | .fin q => .fin (sigRound p q)
    | other => other)

/-- Source `hash_vec(v)`: the sha256 digest of the concatenation of the
`"{:.17g}"` renderings of the components, each followed by `","`.  The
digest is modelled by the serialized string it is computed from (see the
header comment: collision-freeness of sha256 is the spec's own stated
assumption, so the induced record partition is the same). -/
def hash_vec (v : List PyFloat) : String :=
  v.foldl (fun h x => h ++ fmtG 17 x ++ ",") ""

/-- Source `dot(a,b)` on finite (rational) vectors: `sum(x*y for x,y in zip(a,b))`. -/
def dot (a b : List ℚ) : ℚ := (a.zip b).foldl (fun s p => s + p.1 * p.2) 0

/-- The sum `sum(x*x for x in v)` under the square root in source `norm`. -/
def sumSq (v : List ℚ) : ℚ := v.foldl (fun s x => s + x * x) 0

/-- Source `norm(v) = math.sqrt(sum(x*x for x in v)) or 1.0`: since the
radicand is a sum of squares, `sqrt` returns 0 exactly when the sum is 0,
and the `or 1.0` then replaces the 0 by 1. -/
noncomputable def norm (v : List ℚ) : ℝ :=
  if sumSq v = 0 then 1 else Real.sqrt ((sumSq v : ℚ) : ℝ)

/-- Source `cos(a,b) = dot(a,b)/(norm(a)*norm(b))` on finite vectors. -/
noncomputable def cos (a b : List ℚ) : ℝ := ((dot a b : ℚ) : ℝ) / (norm a * norm b)

/-- Source `dot` on the full float model (used by the signature loop,
whose accumulation is the identical left fold). -/
def dotF (a b : List PyFloat) : PyFloat :=
  (a.zip b).foldl (fun s p => pyAdd s (pyMul p.1 p.2)) (.fin 0)

/-- Source `gen_projections(dim, n, seed)`: `n` Rademacher rows of `dim`
entries, row entry `(i,j)` drawn from the seeded generator's successive
outputs (`rng` consumed in row-major call order), `+1.0` when the draw is
below one half and `-1.0` otherwise. -/
def gen_projections (rng : ℕ → ℚ) (dim : ℕ) (n : ℕ := N_PROJ) : List (List PyFloat) :=
  (List.range n).map (fun i =>
    (List.range dim).map (fun j =>
      if rng (i * dim + j) < 1 / 2 then PyFloat.fin 1 else PyFloat.fin (-1)))

/-- Source `sign_signature(v, R)`: one bit per projection row, `1` when
the accumulated dot product compares `>= 0` and `0` otherwise (so a nan
accumulation gives bit 0, and an exact zero gives bit 1). -/
def sign_signature (v : List PyFloat) (R : List (List PyFloat)) : List ℕ :=
  R.map (fun r =>
    if pyGe ((v.zip r).foldl (fun s p => pyAdd s (pyMul p.1 p.2)) (.fin 0)) (.fin 0) then 1 else 0)

/-- An input record together with its source path, as yielded by
`stream_glyphs`: the values of the `id` and `vec` fields (`pnone` when
the field is absent).  Extra fields are ignored by the code. -/
structure Glyph where
  id : PyVal
  vec : PyVal
deriving DecidableEq, Repr

/-- A bucket member as stored by the source: `(gid, file, vec_rounded, vec_raw)`. -/
structure Entry where
  gid : PyVal
  src : String
  vr : List PyFloat
  vraw : List PyFloat
deriving DecidableEq, Repr

/-- Model of `os.path.basename` on the forward-slash paths used here:
the substring after the last `/`. -/
def basename (s : String) : String :=
  String.mk ((s.toList.splitOn '/').reverse.headD s.toList)

/-- Model of `d.setdefault(k, []).append(m)` on an insertion-ordered
dictionary represented as an association list with distinct keys. -/
def insertAppend {κ μ : Type} [DecidableEq κ] : List (κ × List μ) → κ → μ → List (κ × List μ)
  | [], k, m => [(k, [m])]
  | (k₀, ms) :: rest, k, m =>
      if k = k₀ then (k₀, ms ++ [m]) :: rest else (k₀, ms) :: insertAppend rest k m

/-- Values stored under a key of an association-list dictionary (empty
list when the key is absent). -/
def findVals {κ μ : Type} [DecidableEq κ] : List (κ × List μ) → κ → List μ
  | [], _ => []
  | (k₀, ms) :: rest, k => if k = k₀ then ms else findVals rest k

/-- The mutable state of `main`'s ingestion loop: `exact_index`,
`sig_buckets`, `dims`, `R` and `total`.  In the source `R` is `None`
until `dims` is set; here `projs` is `[]` until then, and it is only
ever read after `dims` is set. -/
structure ScanState where
  exact : List (String × List (PyVal × String))
  buckets : List (List ℕ × List Entry)
  dims : Option ℕ
  projs : List (List PyFloat)
  total : ℕ
deriving DecidableEq, Repr

/-- Initial ingestion state. -/
def initState : ScanState := ⟨[], [], none, [], 0⟩

/-- Model of `tuple(float(x) for x in v)` inside `try/except`: `none`
when any entry raises. -/
def convertAll (l : List PyAtom) : Option (List PyFloat) := l.mapM py_float

/-- The tail of the loop body after the dimension logic: attempt the
float conversion and, on success, insert into both indices and bump the
accepted count; on failure leave the state as it is (the record is
skipped, but `dims`/`projs` updates made before the conversion stay). -/
def ingest (st : ScanState) (gid : PyVal) (l : List PyAtom) (src : String) : ScanState :=
  match convertAll l with
  | none => st
  | some vraw =>
      { st with
        exact := insertAppend st.exact (hash_vec (round_vec vraw PREC)) (gid, basename src)
        buckets := insertAppend st.buckets (sign_signature vraw st.projs)
          ⟨gid, basename src, round_vec vraw PREC, vraw⟩
        total := st.total + 1 }

/-- One iteration of the ingestion loop of `main`: skip when the id is
falsy or the vec field is not a list; establish `dims` and the basis
from the first surviving record (before the float conversion, exactly as
the source does); skip on a dimension mismatch; then convert and insert. -/
def step (rng : ℕ → ℚ) (st : ScanState) (g : Glyph × String) : ScanState :=
  if !(truthy g.1.id) then st
  else
    match g.1.vec with
    | .plist l =>
        match st.dims with
        | none =>
            ingest { st with dims := some l.length, projs := gen_projections rng l.length N_PROJ }
              g.1.id l g.2
        | some d => if l.length = d then ingest st g.1.id l g.2 else st
    | _ => st

/-- Ingestion from an arbitrary starting state. -/
def runFrom (rng : ℕ → ℚ) (st : ScanState) (gs : List (Glyph × String)) : ScanState :=
  gs.foldl (step rng) st

/-- The complete ingestion pass of `main` over the flattened stream of
(record, source path) pairs. -/
def runScan (rng : ℕ → ℚ) (gs : List (Glyph × String)) : ScanState :=
  runFrom rng initState gs

/-- Decidable form of the scanner's emit test on finite (rational)
vectors: with `N` the product of the two zero-floored squared norms,
`cos(a,b) >= NEAR_THRESH` holds iff the dot product is nonnegative and
its square is at least `NEAR_THRESH^2 * N` (proved as `nearChk_iff_cos`
below). -/
def nearChk (a b : List ℚ) : Bool :=
  decide (0 ≤ dot a b) &&
    decide (NEAR_THRESH ^ 2 *
      ((if sumSq a = 0 then 1 else sumSq a) * (if sumSq b = 0 then 1 else sumSq b)) ≤
      dot a b ^ 2)

/-- Whether every component of a modelled float vector is finite. -/
def allFinite (v : List PyFloat) : Bool := v.all PyFloat.isFin

/-- The rational components of a finite modelled float vector (non-finite
components, never present at use sites, map to 0). -/
def toQ (v : List PyFloat) : List ℚ :=
  v.map (fun x => match x with | .fin q => q | _ => 0)

/-- The scanner's `cos(vi, vj) >= NEAR_THRESH` test as executed on stored
raw vectors.  When every component is finite this is the decidable
threshold test `nearChk`.  When either vector has a nan component, every
dot product and/or norm involving it is nan and any comparison with nan
is false.  When either has an infinite component (and no nan), that
vector's norm is `+inf`; the quotient is then `0`, `nan` (`±inf/inf` or
an `inf - inf`/`inf * 0` dot product), and in every case compares below
the threshold.  So the test is false whenever a non-finite component is
present. -/
def nearOK (a b : List PyFloat) : Bool :=
  if allFinite a && allFinite b then nearChk (toQ a) (toQ b) else false

/-- All index pairs `i < j` of a list in the enumeration order of the
source's double loop. -/
def pairsOf {α : Type} : List α → List (α × α)
  | [] => []
  | x :: xs => xs.map (fun y => (x, y)) ++ pairsOf xs

/-- The within-bucket candidate pairs, in bucket order then loop order
(buckets with fewer than two members contribute no pairs, matching the
source's `len(entries) < 2` skip). -/
def bucketPairs (bs : List (List ℕ × List Entry)) : List (Entry × Entry) :=
  bs.flatMap (fun b => pairsOf b.2)

/-- The id pair the scanner uses as seen-pair key (the source tags are
not part of the key). -/
def keyOf (p : Entry × Entry) : PyVal × PyVal := (p.1.gid, p.2.gid)

/-- One candidate pair of the near-clone search: skip when the id pair
was already seen; otherwise record the pair when the similarity test
passes, and mark the id pair as seen either way (the source adds the key
after the comparison, unconditionally). -/
def scanStep (acc : List (PyVal × PyVal) × List (Entry × Entry)) (p : Entry × Entry) :
    List (PyVal × PyVal) × List (Entry × Entry) :=
  if keyOf p ∈ acc.1 then acc
  else (keyOf p :: acc.1,
    if nearOK p.1.vraw p.2.vraw then acc.2 ++ [p] else acc.2)

/-- The near-clone pairs reported by the scanning phase of `main`, each
as the ordered pair of bucket entries whose ids, sources and similarity
the source prints. -/
def scanPairs (bs : List (List ℕ × List Entry)) : List (Entry × Entry) :=
  ((bucketPairs bs).foldl scanStep ([], [])).2

/-- Near-clone pairs of a complete run. -/
def nearPairsRun (rng : ℕ → ℚ) (gs : List (Glyph × String)) : List (Entry × Entry) :=
  scanPairs (runScan rng gs).buckets

/-- The exact clusters a run reports: the member lists of the exact-index
groups with at least two members, in index order. -/
def clustersOf (st : ScanState) : List (List (PyVal × String)) :=
  (st.exact.filter (fun kv => 2 ≤ kv.2.length)).map (fun kv => kv.2)

/-- All bucket entries of a state, in bucket order. -/
def allEntries (st : ScanState) : List Entry := st.buckets.flatMap (fun b => b.2)

/-- The structural pre-check of the loop: truthy id and list-valued vec
(everything before the dimension logic). -/
def preGood (g : Glyph × String) : Bool :=
  truthy g.1.id && (match g.1.vec with | .plist _ => true | _ => false)

/-- The vector entries of a glyph (empty for a non-list vec). -/
def vecList (g : Glyph × String) : List PyAtom :=
  match g.1.vec with | .plist l => l | _ => []

/-- Acceptance at an established dimension `d`: structural pre-check,
length match, and successful float conversion. -/
def goodAt (d : ℕ) (g : Glyph × String) : Bool :=
  preGood g && (vecList g).length = d && (convertAll (vecList g)).isSome

/-- The raw converted vector of an accepted glyph. -/
def rawOf (g : Glyph × String) : List PyFloat := (convertAll (vecList g)).getD []

/-- The exact-index member contributed by an accepted glyph. -/
def memberOf (g : Glyph × String) : PyVal × String := (g.1.id, basename g.2)

/-- The exact-index key contributed by an accepted glyph. -/
def hashOf (g : Glyph × String) : String := hash_vec (round_vec (rawOf g) PREC)

/-- The bucket key contributed by an accepted glyph under basis `R`. -/
def sigOf (R : List (List PyFloat)) (g : Glyph × String) : List ℕ :=
  sign_signature (rawOf g) R

/-- The bucket entry contributed by an accepted glyph. -/
def entryOf (g : Glyph × String) : Entry :=
  ⟨g.1.id, basename g.2, round_vec (rawOf g) PREC, rawOf g⟩

/-- The effect of one accepted glyph on the state: both insertions and
the count bump of the loop tail, expressed through the per-glyph
contribution functions. -/
def recordInsert (st : ScanState) (g : Glyph × String) : ScanState :=
  { st with
    exact := insertAppend st.exact (hashOf g) (memberOf g)
    buckets := insertAppend st.buckets (sigOf st.projs g) (entryOf g)
    total := st.total + 1 }

/-- The subsequence of glyphs the ingestion loop accepts, replayed with
the dimension register as explicit state: skip non-pre-good glyphs;
while no dimension is established, a pre-good glyph establishes its own
length (even when its conversion then fails, matching the source);
afterwards accept exactly the pre-good glyphs of the established length
whose conversion succeeds. -/
def acceptedFrom (dims : Option ℕ) : List (Glyph × String) → List (Glyph × String)
  | [] => []
  | g :: gs =>
      if preGood g then
        match dims with
        | none =>
            match convertAll (vecList g) with
            | some _ => g :: acceptedFrom (some (vecList g).length) gs
            | none => acceptedFrom (some (vecList g).length) gs
        | some d =>
            if (vecList g).length = d then
              match convertAll (vecList g) with
              | some _ => g :: acceptedFrom (some d) gs
              | none => acceptedFrom (some d) gs
            else acceptedFrom (some d) gs
      else acceptedFrom dims gs

/-- The glyphs accepted over a whole run. -/
def acceptedSeq (gs : List (Glyph × String)) : List (Glyph × String) :=
  acceptedFrom none gs

/-- The dimensionality a run establishes: the vector length of the first
glyph passing the structural pre-check (regardless of whether its
conversion later succeeds). -/
def dimsOf (gs : List (Glyph × String)) : Option ℕ :=
  (gs.find? preGood).map (fun g => (vecList g).length)

/-- The projection basis a run establishes. -/
def basisOf (rng : ℕ → ℚ) (gs : List (Glyph × String)) : List (List PyFloat) :=
  match gs.find? preGood with
  | none => []
  | some g => gen_projections rng (vecList g).length N_PROJ

/-- The bucket entries contributed by the glyphs accepted at a fixed
dimension `D`, in encounter order. -/
def acceptedEntries (D : ℕ) (gs : List (Glyph × String)) : List Entry :=
  (gs.filter (goodAt D)).map entryOf

/-- A fixed concrete stand-in for the generator output sequence, used by
the concrete scenarios below (every draw is `0 < 1/2`, so every
projection entry is `+1`). -/
def rngZero : ℕ → ℚ := fun _ => 0

/-- Scenario record `{id:"a", vec:[1,2,3]}` from file `f1.json`. -/
def glyphA : Glyph × String :=
  (⟨.pstr "a", .plist [.anum (.fin 1), .anum (.fin 2), .anum (.fin 3)]⟩, "f1.json")

/-- Scenario record `{id:"b", vec:[1,2,3]}` from file `f1.json`. -/
def glyphB : Glyph × String :=
  (⟨.pstr "b", .plist [.anum (.fin 1), .anum (.fin 2), .anum (.fin 3)]⟩, "f1.json")

/-- Scenario record `{id:"c", vec:[1,2,3.0000000000000004]}` from file
`f2.json` (the third component is the exact decimal value of the JSON
literal). -/
def glyphC : Glyph × String :=
  (⟨.pstr "c", .plist [.anum (.fin 1), .anum (.fin 2), .anum (.fin (3 + 4 / 10 ^ 16))]⟩,
    "f2.json")

/-- Scenario record `{id:"a", vec:[NaN]}`. -/
def glyphNan : Glyph × String := (⟨.pstr "a", .plist [.anum PyFloat.nan]⟩, "f.json")

/-- Scenario record `{id:"a", vec:[null]}`: structurally a list, but its
entry raises in `float()`. -/
def glyphNone : Glyph × String := (⟨.pstr "a", .plist [.anone]⟩, "f.json")

/-- Scenario record `{id:"b", vec:[1,2]}`. -/
def glyphB2 : Glyph × String :=
  (⟨.pstr "b", .plist [.anum (.fin 1), .anum (.fin 2)]⟩, "f.json")

/-- Scenario record `{id:"x", vec:[1,2]}`. -/
def glyphX2 : Glyph × String :=
  (⟨.pstr "x", .plist [.anum (.fin 1), .anum (.fin 2)]⟩, "f.json")

/-- Scenario record `{id:"u", vec:[1]}`. -/
def glyphU : Glyph × String := (⟨.pstr "u", .plist [.anum (.fin 1)]⟩, "f.json")

/-- Scenario record `{id:"v", vec:[1]}` from a second file. -/
def glyphV : Glyph × String := (⟨.pstr "v", .plist [.anum (.fin 1)]⟩, "g.json")

/-- Scenario record `{id:"e1", vec:[]}`. -/
def glyphE1 : Glyph × String := (⟨.pstr "e1", .plist []⟩, "f.json")

/-- Scenario record `{id:"e2", vec:[]}`. -/
def glyphE2 : Glyph × String := (⟨.pstr "e2", .plist []⟩, "f.json")

/-- A bucket entry with raw vector `(1999, 0, 0, 0, 0)`, of Euclidean
norm exactly 1999. -/
def entryP : Entry :=
  ⟨.pstr "p", "f.json", [.fin 1999, .fin 0, .fin 0, .fin 0, .fin 0],
    [.fin 1999, .fin 0, .fin 0, .fin 0, .fin 0]⟩

/-- A bucket entry with raw vector `(1999, 62, 11, 5, 3)`, of Euclidean
norm exactly 2000; its cosine similarity with `entryP` is exactly
`1999^2 / (1999 * 2000) = 0.9995`, the threshold. -/
def entryQ : Entry :=
  ⟨.pstr "q", "g.json", [.fin 1999, .fin 62, .fin 11, .fin 5, .fin 3],
    [.fin 1999, .fin 62, .fin 11, .fin 5, .fin 3]⟩

/-- A one-bucket index holding `entryP` and `entryQ`. -/
def bucketC5 : List (List ℕ × List Entry) := [([1], [entryP, entryQ])]

/-! ### Dictionary (association list) lemmas -/

/-- Looking up after a `setdefault`-append: the looked-up list gains `m`
at its end exactly for the inserted key. -/
lemma findVals_insertAppend {κ μ : Type} [DecidableEq κ] (idx : List (κ × List μ)) (k : κ)
    (m : μ) (k' : κ) :
    findVals (insertAppend idx k m) k' =
      if k' = k then findVals idx k' ++ [m] else findVals idx k' := by
  induction idx with
  | nil => by_cases h : k' = k <;> simp [insertAppend, findVals, h]
  | cons kv rest ih =>
      obtain ⟨k₀, ms⟩ := kv
      simp only [insertAppend]
      by_cases hk : k = k₀
      · subst hk
        by_cases h' : k' = k <;> simp [findVals, h']
      · simp only [if_neg hk]
        by_cases h' : k' = k₀
        · subst h'
          have hne : ¬ k' = k := fun h => hk h.symm
          simp [findVals, hne]
        · simp [findVals, h', ih]

/-- Key list of a `setdefault`-append: unchanged for a present key,
extended at the end for a new one. -/
lemma insertAppend_keys {κ μ : Type} [DecidableEq κ] (idx : List (κ × List μ)) (k : κ) (m : μ) :
    (insertAppend idx k m).map Prod.fst =
      if k ∈ idx.map Prod.fst then idx.map Prod.fst else idx.map Prod.fst ++ [k] := by
  induction idx with
  | nil => simp [insertAppend]
  | cons kv rest ih =>
      obtain ⟨k₀, ms⟩ := kv
      by_cases hk : k = k₀
      · subst hk; simp [insertAppend]
      · by_cases hm : k ∈ rest.map Prod.fst <;>
          simp [insertAppend, hk, ih, hm, Ne.symm hk]

/-- A `setdefault`-append preserves distinctness of the keys. -/
lemma insertAppend_keys_nodup {κ μ : Type} [DecidableEq κ] {idx : List (κ × List μ)} {k : κ}
    {m : μ} (h : (idx.map Prod.fst).Nodup) : ((insertAppend idx k m).map Prod.fst).Nodup := by
  rw [insertAppend_keys]
  by_cases hk : k ∈ idx.map Prod.fst
  · simpa [hk] using h
  · simp only [if_neg hk]
    exact h.append (List.nodup_singleton k) (by simpa [List.disjoint_left] using hk)

/-- With distinct keys, a stored pair is recovered by lookup. -/
lemma findVals_of_mem {κ μ : Type} [DecidableEq κ] {idx : List (κ × List μ)} {k : κ}
    {ms : List μ} (hnd : (idx.map Prod.fst).Nodup) (hm : (k, ms) ∈ idx) :
    findVals idx k = ms := by
  induction idx with
  | nil => cases hm
  | cons kv rest ih =>
      obtain ⟨k₀, ms₀⟩ := kv
      rw [List.map_cons] at hnd
      have hnd' := List.nodup_cons.mp hnd
      rcases List.mem_cons.mp hm with h | h
      · cases h; simp [findVals]
      · have hk : ¬ k = k₀ := by
          rintro rfl
          exact hnd'.1 (List.mem_map.mpr ⟨(k, ms), h, rfl⟩)
        simpa [findVals, hk] using ih hnd'.2 h

/-- A `setdefault`-append never stores an empty member list. -/
lemma insertAppend_vals_ne {κ μ : Type} [DecidableEq κ] {idx : List (κ × List μ)} {k : κ}
    {m : μ} (h : ∀ kv ∈ idx, kv.2 ≠ ([] : List μ)) :
    ∀ kv ∈ insertAppend idx k m, kv.2 ≠ [] := by
  induction idx with
  | nil => intro kv hkv; simp [insertAppend] at hkv; simp [hkv]
  | cons kv₀ rest ih =>
      obtain ⟨k₀, ms⟩ := kv₀
      intro kv hkv
      by_cases hk : k = k₀
      · subst hk
        simp only [insertAppend, if_pos rfl] at hkv
        rcases List.mem_cons.mp hkv with rfl | h'
        · simp
        · exact h kv (List.mem_cons_of_mem _ h')
      · simp only [insertAppend, if_neg hk] at hkv
        rcases List.mem_cons.mp hkv with rfl | h'
        · exact h (k₀, ms) (List.mem_cons_self _ _)
        · exact ih (fun kv' h' => h kv' (List.mem_cons_of_mem _ h')) kv h'

/-- A keyed property of all stored values survives a `setdefault`-append
of a value satisfying it at its key. -/
lemma insertAppend_forall {κ μ : Type} [DecidableEq κ] {idx : List (κ × List μ)} {k : κ} {m : μ}
    (P : κ → μ → Prop) (h : ∀ kv ∈ idx, ∀ e ∈ kv.2, P kv.1 e) (hm : P k m) :
    ∀ kv ∈ insertAppend idx k m, ∀ e ∈ kv.2, P kv.1 e := by
  induction idx with
  | nil =>
      intro kv hkv e he
      simp [insertAppend] at hkv
      subst hkv
      simp at he
      simpa [he] using hm
  | cons kv₀ rest ih =>
      obtain ⟨k₀, ms⟩ := kv₀
      intro kv hkv e he
      by_cases hk : k = k₀
      · subst hk
        simp only [insertAppend, if_pos rfl] at hkv
        rcases List.mem_cons.mp hkv with rfl | h'
        · rcases List.mem_append.mp he with h₂ | h₂
          · exact h (k, ms) (List.mem_cons_self _ _) e h₂
          · simpa [List.mem_singleton.mp h₂] using hm
        · exact h kv (List.mem_cons_of_mem _ h') e he
      · simp only [insertAppend, if_neg hk] at hkv
        rcases List.mem_cons.mp hkv with rfl | h'
        · exact h (k₀, ms) (List.mem_cons_self _ _) e he
        · exact ih (fun kv' hg => h kv' (List.mem_cons_of_mem _ hg)) kv h' e he

/-! ### Pair enumeration lemmas -/

/-- Both components of an enumerated pair are list members. -/
lemma mem_of_mem_pairsOf {α : Type} {l : List α} {p : α × α} (h : p ∈ pairsOf l) :
    p.1 ∈ l ∧ p.2 ∈ l := by
  induction l with
  | nil => cases h
  | cons x xs ih =>
      simp only [pairsOf, List.mem_append, List.mem_map] at h
      rcases h with ⟨y, hy, rfl⟩ | h
      · exact ⟨List.mem_cons_self _ _, List.mem_cons_of_mem _ hy⟩
      · rcases ih h with ⟨h1, h2⟩
        exact ⟨List.mem_cons_of_mem _ h1, List.mem_cons_of_mem _ h2⟩

/-- The enumerated pairs of a duplicate-free list are pairwise distinct. -/
lemma pairsOf_nodup {α : Type} {l : List α} (h : l.Nodup) : (pairsOf l).Nodup := by
  induction l with
  | nil => simp [pairsOf]
  | cons x xs ih =>
      obtain ⟨hx, hxs⟩ := List.nodup_cons.mp h
      simp only [pairsOf]
      refine List.Nodup.append ?_ (ih hxs) ?_
      · exact hxs.map (fun a b hab => congrArg Prod.snd hab)
      · intro p hp hp'
        rcases List.mem_map.mp hp with ⟨y, _, rfl⟩
        exact hx (mem_of_mem_pairsOf hp').1

/-- In a duplicate-free list, an enumerated pair has distinct components. -/
lemma ne_of_mem_pairsOf {α : Type} {l : List α} {x y : α} (h : l.Nodup)
    (hm : (x, y) ∈ pairsOf l) : x ≠ y := by
  induction l with
  | nil => cases hm
  | cons a as ih =>
      obtain ⟨ha, has⟩ := List.nodup_cons.mp h
      simp only [pairsOf, List.mem_append, List.mem_map] at hm
      rcases hm with ⟨y', hy', heq⟩ | hm
      · obtain ⟨rfl, rfl⟩ := Prod.mk.injEq .. ▸ heq
        exact fun hxy => ha (hxy ▸ hy')
      · exact ih has hm

/-- In a duplicate-free list, two distinct members are enumerated as a
pair in one order or the other. -/
lemma mem_pairsOf_of_mem {α : Type} {l : List α} {x y : α} (h : l.Nodup) (hx : x ∈ l)
    (hy : y ∈ l) (hxy : x ≠ y) : (x, y) ∈ pairsOf l ∨ (y, x) ∈ pairsOf l := by
  induction l with
  | nil => cases hx
  | cons a as ih =>
      obtain ⟨_, has⟩ := List.nodup_cons.mp h
      rcases List.mem_cons.mp hx with rfl | hx'
      · have hy' : y ∈ as := by
          rcases List.mem_cons.mp hy with rfl | h' <;> [exact absurd rfl hxy; exact h']
        exact Or.inl (List.mem_append_left _ (List.mem_map.mpr ⟨y, hy', rfl⟩))
      · rcases List.mem_cons.mp hy with rfl | hy'
        · exact Or.inr (List.mem_append_left _ (List.mem_map.mpr ⟨x, hx', rfl⟩))
        · rcases ih has hx' hy' with h' | h'
          · exact Or.inl (List.mem_append_right _ h')
          · exact Or.inr (List.mem_append_right _ h')

/-! ### Scanner fold lemmas -/

/-- Anything the scan loop outputs was in the starting output or is a
checked pair passing the similarity test. -/
lemma scanFold_mem (ps : List (Entry × Entry)) :
    ∀ (seen : List (PyVal × PyVal)) (out : List (Entry × Entry)) (p : Entry × Entry),
      p ∈ (ps.foldl scanStep (seen, out)).2 →
      p ∈ out ∨ (p ∈ ps ∧ nearOK p.1.vraw p.2.vraw = true) := by
  induction ps with
  | nil => intro seen out p h; exact Or.inl (by simpa using h)
  | cons q tl ih =>
      intro seen out p h
      simp only [List.foldl_cons] at h
      by_cases hk : keyOf q ∈ seen
      · rw [show scanStep (seen, out) q = (seen, out) by simp [scanStep, hk]] at h
        rcases ih _ _ _ h with h' | ⟨h1, h2⟩
        · exact Or.inl h'
        · exact Or.inr ⟨List.mem_cons_of_mem _ h1, h2⟩
      · by_cases hn : nearOK q.1.vraw q.2.vraw
        · rw [show scanStep (seen, out) q = (keyOf q :: seen, out ++ [q]) by
            simp [scanStep, hk, hn]] at h
          rcases ih _ _ _ h with h' | ⟨h1, h2⟩
          · rcases List.mem_append.mp h' with h'' | h''
            · exact Or.inl h''
            · have hpq : p = q := by simpa using h''
              subst hpq
              exact Or.inr ⟨List.mem_cons_self _ _, hn⟩
          · exact Or.inr ⟨List.mem_cons_of_mem _ h1, h2⟩
        · rw [show scanStep (seen, out) q = (keyOf q :: seen, out) by
            simp [scanStep, hk, hn]] at h
          rcases ih _ _ _ h with h' | ⟨h1, h2⟩
          · exact Or.inl h'
          · exact Or.inr ⟨List.mem_cons_of_mem _ h1, h2⟩

/-- When the checked pairs carry pairwise distinct id-pair keys, none of
them already seen, the scan loop emits exactly the pairs passing the
similarity test, in order. -/
lemma scanFold_eq_filter (ps : List (Entry × Entry)) :
    ∀ (seen : List (PyVal × PyVal)) (out : List (Entry × Entry)),
      (ps.map keyOf).Nodup → (∀ k ∈ seen, k ∉ ps.map keyOf) →
      (ps.foldl scanStep (seen, out)).2 =
        out ++ ps.filter (fun p => nearOK p.1.vraw p.2.vraw) := by
  induction ps with
  | nil => intro seen out _ _; simp
  | cons q tl ih =>
      intro seen out hnd hseen
      rw [List.map_cons] at hnd
      have hnd' := List.nodup_cons.mp hnd
      have hk : keyOf q ∉ seen := fun hc => hseen _ hc (List.mem_cons_self _ _)
      have hseen' : ∀ k ∈ keyOf q :: seen, k ∉ tl.map keyOf := by
        intro k hk'
        rcases List.mem_cons.mp hk' with rfl | h'
        · exact hnd'.1
        · exact fun hc => hseen k h' (List.mem_cons_of_mem _ hc)
      simp only [List.foldl_cons]
      by_cases hn : nearOK q.1.vraw q.2.vraw
      · rw [show scanStep (seen, out) q = (keyOf q :: seen, out ++ [q]) by
          simp [scanStep, hk, hn]]
        rw [ih _ _ hnd'.2 hseen']
        simp [List.filter_cons, hn]
      · rw [show scanStep (seen, out) q = (keyOf q :: seen, out) by
          simp [scanStep, hk, hn]]
        rw [ih _ _ hnd'.2 hseen']
        simp [List.filter_cons, hn]

/-- The scan loop's output keys are always among the seen keys and
pairwise distinct. -/
lemma scanFold_keys (ps : List (Entry × Entry)) :
    ∀ (seen : List (PyVal × PyVal)) (out : List (Entry × Entry)),
      (∀ k ∈ out.map keyOf, k ∈ seen) → (out.map keyOf).Nodup →
      (∀ k ∈ (ps.foldl scanStep (seen, out)).2.map keyOf, k ∈ (ps.foldl scanStep (seen, out)).1) ∧
        ((ps.foldl scanStep (seen, out)).2.map keyOf).Nodup := by
  induction ps with
  | nil => intro seen out h1 h2; exact ⟨h1, h2⟩
  | cons q tl ih =>
      intro seen out h1 h2
      simp only [List.foldl_cons]
      by_cases hk : keyOf q ∈ seen
      · rw [show scanStep (seen, out) q = (seen, out) by simp [scanStep, hk]]
        exact ih _ _ h1 h2
      · by_cases hn : nearOK q.1.vraw q.2.vraw
        · rw [show scanStep (seen, out) q = (keyOf q :: seen, out ++ [q]) by
            simp [scanStep, hk, hn]]
          refine ih _ _ ?_ ?_
          · intro k hkm
            rw [List.map_append] at hkm
            rcases List.mem_append.mp hkm with h' | h'
            · exact List.mem_cons_of_mem _ (h1 k h')
            · have : k = keyOf q := by simpa using h'
              exact this ▸ List.mem_cons_self _ _
          · rw [List.map_append]
            refine h2.append (by simp) ?_
            intro k hkm hkq
            have : k = keyOf q := by simpa using hkq
            exact hk (this ▸ h1 k hkm)
        · rw [show scanStep (seen, out) q = (keyOf q :: seen, out) by
            simp [scanStep, hk, hn]]
          exact ih _ _ (fun k hkm => List.mem_cons_of_mem _ (h1 k hkm)) h2

/-- When the mapped keys of a list are pairwise distinct, filtering by
one key value keeps at most one element. -/
lemma length_filter_le_one {α β : Type} [DecidableEq α] {L : List β} {f : β → α}
    (h : (L.map f).Nodup) (k : α) :
    (L.filter (fun p => decide (f p = k))).length ≤ 1 := by
  induction L with
  | nil => simp
  | cons q tl ih =>
      rw [List.map_cons] at h
      have h' := List.nodup_cons.mp h
      by_cases hq : f q = k
      · rw [List.filter_cons, if_pos (by simpa using hq)]
        have hnil : tl.filter (fun p => decide (f p = k)) = [] := by
          rw [List.filter_eq_nil_iff]
          intro a ha hk
          refine h'.1 ?_
          have : f a = k := by simpa using hk
          exact List.mem_map.mpr ⟨a, ha, by rw [this, hq]⟩
        simp [hnil]
      · rw [List.filter_cons, if_neg (by simpa using hq)]
        exact ih h'.2

/-! ### Numeric lemmas for the similarity test -/

/-- The radicand of `norm` is nonnegative. -/
lemma sumSq_nonneg (v : List ℚ) : 0 ≤ sumSq v := by
  have h : ∀ (w : List ℚ) (s : ℚ), 0 ≤ s → 0 ≤ w.foldl (fun s x => s + x * x) s := by
    intro w
    induction w with
    | nil => intro s hs; simpa using hs
    | cons x xs ih =>
        intro s hs
        simpa using ih _ (add_nonneg hs (mul_self_nonneg x))
  simpa [sumSq] using h v 0 le_rfl

/-- The source's `dot` is symmetric. -/
lemma dot_comm (a b : List ℚ) : dot a b = dot b a := by
  suffices h : ∀ (a b : List ℚ) (s : ℚ),
      (a.zip b).foldl (fun s p => s + p.1 * p.2) s =
        (b.zip a).foldl (fun s p => s + p.1 * p.2) s from h a b 0
  intro a
  induction a with
  | nil => intro b s; simp
  | cons x xs ih =>
      intro b s
      cases b with
      | nil => simp
      | cons y ys =>
          simp only [List.zip_cons_cons, List.foldl_cons]
          rw [mul_comm x y]
          exact ih ys _

/-- The zero-floored squared norm is positive. -/
lemma normQ_pos (v : List ℚ) : 0 < (if sumSq v = 0 then (1 : ℚ) else sumSq v) := by
  by_cases h : sumSq v = 0
  · simp [h]
  · simpa [h] using lt_of_le_of_ne (sumSq_nonneg v) (Ne.symm h)

/-- Rewriting `norm` as the square root of the zero-floored squared norm. -/
lemma norm_sq_repr (v : List ℚ) :
    norm v = Real.sqrt (((if sumSq v = 0 then (1 : ℚ) else sumSq v) : ℚ) : ℝ) := by
  have hdef : norm v = if sumSq v = 0 then (1 : ℝ) else Real.sqrt ((sumSq v : ℚ) : ℝ) := rfl
  rw [hdef]
  by_cases h : sumSq v = 0
  · rw [if_pos h, if_pos h]
    simp
  · rw [if_neg h, if_neg h]

/-- The source's `norm` is strictly positive: the `or 1.0` floor makes
the zero vector's norm 1, and every other norm is a positive square
root. -/
lemma norm_pos (v : List ℚ) : 0 < norm v := by
  rw [norm_sq_repr]
  exact Real.sqrt_pos.mpr (by exact_mod_cast normQ_pos v)

/-- The decidable threshold test over rationals agrees with the real
comparison of the quotient form against the threshold. -/
lemma thresh_iff (d A B t : ℚ) (hA : 0 < A) (hB : 0 < B) (ht : 0 < t) :
    (0 ≤ d ∧ t ^ 2 * (A * B) ≤ d ^ 2) ↔
      ((t : ℝ) ≤ (d : ℝ) / (Real.sqrt ((A : ℚ) : ℝ) * Real.sqrt ((B : ℚ) : ℝ))) := by
  have hAR : (0 : ℝ) < (A : ℝ) := by exact_mod_cast hA
  have hBR : (0 : ℝ) < (B : ℝ) := by exact_mod_cast hB
  have htR : (0 : ℝ) < (t : ℝ) := by exact_mod_cast ht
  have hN : (0 : ℝ) < (A : ℝ) * (B : ℝ) := mul_pos hAR hBR
  have hsq : (0 : ℝ) < Real.sqrt ((A : ℝ) * (B : ℝ)) := Real.sqrt_pos.mpr hN
  have hprod : Real.sqrt ((A : ℝ)) * Real.sqrt ((B : ℝ)) = Real.sqrt ((A : ℝ) * (B : ℝ)) :=
    (Real.sqrt_mul (le_of_lt hAR) _).symm
  have hfold : Real.sqrt ((t : ℝ) ^ 2 * ((A : ℝ) * (B : ℝ))) =
      (t : ℝ) * Real.sqrt ((A : ℝ) * (B : ℝ)) := by
    rw [Real.sqrt_mul (sq_nonneg ((t : ℝ))), Real.sqrt_sq (le_of_lt htR)]
  rw [hprod, le_div_iff₀ hsq]
  constructor
  · rintro ⟨hd, h2⟩
    have hdR : (0 : ℝ) ≤ (d : ℝ) := by exact_mod_cast hd
    have h2R : (t : ℝ) ^ 2 * ((A : ℝ) * (B : ℝ)) ≤ (d : ℝ) ^ 2 := by exact_mod_cast h2
    rw [← hfold]
    calc Real.sqrt ((t : ℝ) ^ 2 * ((A : ℝ) * (B : ℝ)))
        ≤ Real.sqrt ((d : ℝ) ^ 2) := Real.sqrt_le_sqrt h2R
      _ = (d : ℝ) := Real.sqrt_sq hdR
  · intro h
    have hdR : (0 : ℝ) ≤ (d : ℝ) :=
      le_trans (le_of_lt (mul_pos htR hsq)) h
    have h2 : ((t : ℝ) * Real.sqrt ((A : ℝ) * (B : ℝ))) ^ 2 ≤ (d : ℝ) ^ 2 :=
      pow_le_pow_left₀ (by positivity) h 2
    rw [mul_pow, Real.sq_sqrt (le_of_lt hN)] at h2
    constructor
    · exact_mod_cast hdR
    · exact_mod_cast h2

/-- The executable `nearChk` decides exactly `cos(a,b) >= NEAR_THRESH`. -/
lemma nearChk_iff_cos (a b : List ℚ) :
    nearChk a b = true ↔ (NEAR_THRESH : ℝ) ≤ cos a b := by
  unfold nearChk cos
  rw [norm_sq_repr, norm_sq_repr, Bool.and_eq_true, decide_eq_true_eq, decide_eq_true_eq]
  exact thresh_iff (dot a b) _ _ NEAR_THRESH (normQ_pos a) (normQ_pos b)
    (by norm_num [NEAR_THRESH])

/-- On finite vectors the scanner's emit test is the real threshold
comparison. -/
lemma nearOK_iff_cos (a b : List PyFloat) (ha : allFinite a = true) (hb : allFinite b = true) :
    nearOK a b = true ↔ (NEAR_THRESH : ℝ) ≤ cos (toQ a) (toQ b) := by
  rw [show nearOK a b = nearChk (toQ a) (toQ b) by simp [nearOK, ha, hb]]
  exact nearChk_iff_cos (toQ a) (toQ b)

/-- The decidable threshold test is symmetric. -/
lemma nearChk_comm (a b : List ℚ) : nearChk a b = nearChk b a := by
  unfold nearChk
  rw [dot_comm b a,
    mul_comm (if sumSq b = 0 then (1 : ℚ) else sumSq b)
      (if sumSq a = 0 then (1 : ℚ) else sumSq a)]

/-- The scanner's emit test is symmetric. -/
lemma nearOK_comm (a b : List PyFloat) : nearOK a b = nearOK b a := by
  unfold nearOK
  rw [Bool.and_comm (allFinite b) (allFinite a), nearChk_comm (toQ b) (toQ a)]

/-! ### Ingestion step lemmas -/

/-- A glyph failing the structural pre-check leaves the state unchanged. -/
lemma step_not_preGood (rng : ℕ → ℚ) (st : ScanState) (g : Glyph × String)
    (h : preGood g = false) : step rng st g = st := by
  by_cases ht : truthy g.1.id
  · cases hv : g.1.vec with
    | plist l => simp [preGood, ht, hv] at h
    | pstr s => simp [step, ht, hv]
    | pnum f => simp [step, ht, hv]
    | pbool b => simp [step, ht, hv]
    | pnone => simp [step, ht, hv]
  · have ht' : truthy g.1.id = false := by
      cases hb : truthy g.1.id
      · rfl
      · exact absurd hb ht
    simp [step, ht']

/-- The conversion-and-insert tail of the loop as a conditional
`recordInsert`. -/
lemma ingest_eq (st : ScanState) (g : Glyph × String) (l : List PyAtom)
    (hv : g.1.vec = .plist l) :
    ingest st g.1.id l g.2 = if (convertAll l).isSome then recordInsert st g else st := by
  cases hc : convertAll l with
  | none => simp [ingest, hc]
  | some vraw =>
      have hl : vecList g = l := by simp [vecList, hv]
      simp [ingest, hc, recordInsert, hashOf, rawOf, memberOf, sigOf, entryOf, hl]

/-- With an established dimension, one loop iteration either accepts the
glyph and performs both insertions, or leaves the state unchanged. -/
lemma step_some (rng : ℕ → ℚ) (st : ScanState) (d : ℕ) (g : Glyph × String)
    (hd : st.dims = some d) :
    step rng st g = if goodAt d g then recordInsert st g else st := by
  by_cases hp : preGood g = true
  · have ht : truthy g.1.id = true := by
      have hp2 := hp
      simp only [preGood, Bool.and_eq_true] at hp2
      exact hp2.1
    obtain ⟨l, hv⟩ : ∃ l, g.1.vec = .plist l := by
      cases hvv : g.1.vec <;> simp [preGood, hvv, ht] at hp ⊢
    have hl : vecList g = l := by simp [vecList, hv]
    by_cases hlen : l.length = d
    · rw [show step rng st g = ingest st g.1.id l g.2 by simp [step, ht, hv, hd, hlen]]
      rw [ingest_eq st g l hv]
      by_cases hcv : (convertAll l).isSome
      · rw [if_pos hcv, if_pos (by simp [goodAt, hp, hl, hlen, hcv])]
      · rw [if_neg hcv, if_neg (by simp [goodAt, hl, hcv])]
    · rw [show step rng st g = st by simp [step, ht, hv, hd, hlen]]
      rw [if_neg (by simp [goodAt, hl, hlen])]
  · have hp' : preGood g = false := by
      cases hb : preGood g
      · rfl
      · exact absurd hb hp
    rw [step_not_preGood rng st g hp', if_neg (by simp [goodAt, hp'])]

/-- Before any dimension is established, a glyph passing the structural
pre-check establishes its own length and the basis, then runs the
conversion-and-insert tail. -/
lemma step_none (rng : ℕ → ℚ) (st : ScanState) (g : Glyph × String) (l : List PyAtom)
    (hd : st.dims = none) (ht : truthy g.1.id = true) (hv : g.1.vec = .plist l) :
    step rng st g =
      ingest { st with dims := some l.length, projs := gen_projections rng l.length N_PROJ }
        g.1.id l g.2 := by
  simp [step, ht, hv, hd]

/-- The update `recordInsert` changes neither the dimension nor the basis. -/
lemma recordInsert_dims (st : ScanState) (g : Glyph × String) :
    (recordInsert st g).dims = st.dims ∧ (recordInsert st g).projs = st.projs :=
  ⟨rfl, rfl⟩

/-- With its dimension stateless, acceptance is a plain filter. -/
lemma acceptedFrom_some (d : ℕ) (gs : List (Glyph × String)) :
    acceptedFrom (some d) gs = gs.filter (goodAt d) := by
  induction gs with
  | nil => simp [acceptedFrom]
  | cons g tl ih =>
      by_cases hp : preGood g = true
      · by_cases hlen : (vecList g).length = d
        · cases hc : convertAll (vecList g) with
          | none =>
              rw [show acceptedFrom (some d) (g :: tl) = acceptedFrom (some d) tl by
                simp [acceptedFrom, hp, hlen, hc]]
              rw [ih, List.filter_cons, if_neg (by simp [goodAt, hc])]
          | some vraw =>
              rw [show acceptedFrom (some d) (g :: tl) = g :: acceptedFrom (some d) tl by
                simp [acceptedFrom, hp, hlen, hc]]
              rw [ih, List.filter_cons, if_pos (by simp [goodAt, hp, hlen, hc])]
        · rw [show acceptedFrom (some d) (g :: tl) = acceptedFrom (some d) tl by
            simp [acceptedFrom, hp, hlen]]
          rw [ih, List.filter_cons, if_neg (by simp [goodAt, hlen])]
      · have hp' : preGood g = false := by
          cases hb : preGood g
          · rfl
          · exact absurd hb hp
        rw [show acceptedFrom (some d) (g :: tl) = acceptedFrom (some d) tl by
          simp [acceptedFrom, hp']]
        rw [ih, List.filter_cons, if_neg (by simp [goodAt, hp'])]

/-! ### Run characterization -/

/-- Characterization of an ingestion run continued from a state with an
established dimension: the dimension and basis are retained, the count
grows by the number of accepted glyphs, and each index key holds its old
members followed by the members contributed by accepted glyphs with that
key, in order. -/
lemma runFrom_some (rng : ℕ → ℚ) (d : ℕ) (gs : List (Glyph × String)) :
    ∀ st : ScanState, st.dims = some d →
      (runFrom rng st gs).dims = some d ∧
      (runFrom rng st gs).projs = st.projs ∧
      (runFrom rng st gs).total = st.total + (gs.filter (goodAt d)).length ∧
      (∀ h, findVals (runFrom rng st gs).exact h =
        findVals st.exact h ++
          ((gs.filter (goodAt d)).filter (fun g => hashOf g = h)).map memberOf) ∧
      (∀ s, findVals (runFrom rng st gs).buckets s =
        findVals st.buckets s ++
          ((gs.filter (goodAt d)).filter (fun g => sigOf st.projs g = s)).map entryOf) := by
  induction gs with
  | nil => intro st hd; simp [runFrom, hd]
  | cons g tl ih =>
      intro st hd
      rw [show runFrom rng st (g :: tl) = runFrom rng (step rng st g) tl from rfl]
      rw [step_some rng st d g hd]
      by_cases hg : goodAt d g
      · rw [if_pos hg]
        obtain ⟨h1, h2, h3, h4, h5⟩ := ih (recordInsert st g) hd
        simp only [recordInsert] at h1 h2 h3 h4 h5 ⊢
        refine ⟨h1, h2, ?_, ?_, ?_⟩
        · rw [h3, List.filter_cons, if_pos hg, List.length_cons]
          omega
        · intro h
          rw [h4 h, List.filter_cons, if_pos hg]
          rw [findVals_insertAppend]
          by_cases hh : h = hashOf g
          · rw [if_pos hh, List.filter_cons, if_pos (by simp [hh]), List.map_cons,
              List.append_assoc]
            simp
          · rw [if_neg hh, List.filter_cons,
              if_neg (by simpa using fun hc => hh hc.symm)]
        · intro s
          rw [h5 s, List.filter_cons, if_pos hg]
          rw [findVals_insertAppend]
          by_cases hs : s = sigOf st.projs g
          · rw [if_pos hs, List.filter_cons, if_pos (by simp [hs]), List.map_cons,
              List.append_assoc]
            simp
          · rw [if_neg hs, List.filter_cons,
              if_neg (by simpa using fun hc => hs hc.symm)]
      · rw [if_neg hg]
        obtain ⟨h1, h2, h3, h4, h5⟩ := ih st hd
        refine ⟨h1, h2, ?_, ?_, ?_⟩
        · rw [h3, List.filter_cons, if_neg hg]
        · intro h
          rw [h4 h, List.filter_cons, if_neg hg]
        · intro s
          rw [h5 s, List.filter_cons, if_neg hg]

/-- Characterization of a complete run: the dimension and basis come
from the first glyph passing the structural pre-check, the accepted
count is the length of the replayed acceptance sequence, and each index
key holds exactly the members contributed by the accepted glyphs with
that key, in encounter order. -/
lemma runScan_char (rng : ℕ → ℚ) (gs : List (Glyph × String)) :
    (runScan rng gs).dims = dimsOf gs ∧
    (runScan rng gs).projs = basisOf rng gs ∧
    (runScan rng gs).total = (acceptedSeq gs).length ∧
    (∀ h, findVals (runScan rng gs).exact h =
      ((acceptedSeq gs).filter (fun g => hashOf g = h)).map memberOf) ∧
    (∀ s, findVals (runScan rng gs).buckets s =
      ((acceptedSeq gs).filter (fun g => sigOf (basisOf rng gs) g = s)).map entryOf) := by
  induction gs with
  | nil =>
      refine ⟨rfl, rfl, rfl, fun h => rfl, fun s => rfl⟩
  | cons g tl ih =>
      by_cases hp : preGood g = true
      · have ht : truthy g.1.id = true := by
          have hp2 := hp
          simp only [preGood, Bool.and_eq_true] at hp2
          exact hp2.1
        obtain ⟨l, hv⟩ : ∃ l, g.1.vec = .plist l := by
          cases hvv : g.1.vec <;> simp [preGood, hvv, ht] at hp ⊢
        have hl : vecList g = l := by simp [vecList, hv]
        have hfind : (g :: tl).find? preGood = some g := List.find?_cons_of_pos _ hp
        have hdims : dimsOf (g :: tl) = some l.length := by simp [dimsOf, hfind, hl]
        have hbasis : basisOf rng (g :: tl) = gen_projections rng l.length N_PROJ := by
          simp [basisOf, hfind, hl]
        have hrun : runScan rng (g :: tl) =
            runFrom rng (if (convertAll l).isSome
              then recordInsert { initState with dims := some l.length, projs := gen_projections rng l.length N_PROJ } g
              else { initState with dims := some l.length, projs := gen_projections rng l.length N_PROJ }) tl := by
          rw [show runScan rng (g :: tl) = runFrom rng (step rng initState g) tl from rfl,
            step_none rng initState g l rfl ht hv, ingest_eq _ g l hv]
        by_cases hcv : (convertAll l).isSome
        · obtain ⟨vraw, hc⟩ := Option.isSome_iff_exists.mp hcv
          have hacc : acceptedSeq (g :: tl) = g :: tl.filter (goodAt l.length) := by
            rw [show acceptedSeq (g :: tl) = g :: acceptedFrom (some (vecList g).length) tl by
              simp [acceptedSeq, acceptedFrom, hp, hl, hc]]
            rw [hl, acceptedFrom_some]
          rw [if_pos hcv] at hrun
          obtain ⟨h1, h2, h3, h4, h5⟩ := runFrom_some rng l.length tl
            (recordInsert { initState with dims := some l.length, projs := gen_projections rng l.length N_PROJ } g) rfl
          simp only [recordInsert] at h1 h2 h3 h4 h5
          rw [hrun]
          simp only [recordInsert]
          refine ⟨by rw [h1, hdims], by rw [h2, hbasis], ?_, ?_, ?_⟩
          · rw [h3, hacc]
            simp only [initState, List.length_cons]
            omega
          · intro h
            rw [h4 h, hacc, List.filter_cons]
            simp only [initState]
            rw [findVals_insertAppend]
            by_cases hh : h = hashOf g
            · rw [if_pos hh, if_pos (by simp [hh]), List.map_cons]
              simp [findVals]
            · rw [if_neg hh, if_neg (by simpa using fun hc' => hh hc'.symm)]
              simp [findVals]
          · intro s
            rw [h5 s, hacc, List.filter_cons, hbasis]
            simp only [initState]
            rw [findVals_insertAppend]
            by_cases hs : s = sigOf (gen_projections rng l.length N_PROJ) g
            · rw [if_pos hs, if_pos (by simp [hs]), List.map_cons]
              simp [findVals]
            · rw [if_neg hs, if_neg (by simpa using fun hc' => hs hc'.symm)]
              simp [findVals]
        · have hc : convertAll l = none := Option.not_isSome_iff_eq_none.mp hcv
          have hacc : acceptedSeq (g :: tl) = tl.filter (goodAt l.length) := by
            rw [show acceptedSeq (g :: tl) = acceptedFrom (some (vecList g).length) tl by
              simp [acceptedSeq, acceptedFrom, hp, hl, hc]]
            rw [hl, acceptedFrom_some]
          rw [if_neg hcv] at hrun
          obtain ⟨h1, h2, h3, h4, h5⟩ := runFrom_some rng l.length tl
            { initState with dims := some l.length, projs := gen_projections rng l.length N_PROJ } rfl
          rw [hrun]
          refine ⟨by rw [h1, hdims], by rw [h2, hbasis], ?_, ?_, ?_⟩
          · rw [h3, hacc]
            simp [initState]
          · intro h
            rw [h4 h, hacc]
            simp [initState, findVals]
          · intro s
            rw [h5 s, hacc, hbasis]
            simp [initState, findVals]
      · have hp' : preGood g = false := by
          cases hb : preGood g
          · rfl
          · exact absurd hb hp
        have hstep : step rng initState g = initState := step_not_preGood rng initState g hp'
        have hrun : runScan rng (g :: tl) = runScan rng tl := by
          rw [show runScan rng (g :: tl) = runFrom rng (step rng initState g) tl from rfl, hstep]
          rfl
        have hfind : (g :: tl).find? preGood = tl.find? preGood :=
          List.find?_cons_of_neg _ (by simp [hp'])
        have hacc : acceptedSeq (g :: tl) = acceptedSeq tl := by
          simp [acceptedSeq, acceptedFrom, hp']
        obtain ⟨h1, h2, h3, h4, h5⟩ := ih
        rw [hrun, hacc]
        refine ⟨?_, ?_, h3, ?_, ?_⟩
        · rw [h1]
          simp [dimsOf, hfind]
        · rw [h2]
          simp [basisOf, hfind]
        · exact h4
        · intro s
          rw [h5 s]
          have hb : basisOf rng (g :: tl) = basisOf rng tl := by simp [basisOf, hfind]
          rw [hb]
/-! ### Run invariants -/

/-- Each loop iteration either leaves both indices unchanged or performs
one `setdefault`-append on each. -/
lemma step_shape (rng : ℕ → ℚ) (st : ScanState) (g : Glyph × String) :
    ((step rng st g).exact = st.exact ∧ (step rng st g).buckets = st.buckets) ∨
    (∃ k m k' e, (step rng st g).exact = insertAppend st.exact k m ∧
      (step rng st g).buckets = insertAppend st.buckets k' e) := by
  cases hd : st.dims with
  | some d =>
      rw [step_some rng st d g hd]
      by_cases hg : goodAt d g
      · rw [if_pos hg]
        exact Or.inr ⟨_, _, _, _, rfl, rfl⟩
      · rw [if_neg hg]
        exact Or.inl ⟨rfl, rfl⟩
  | none =>
      by_cases hp : preGood g = true
      · have ht : truthy g.1.id = true := by
          have hp2 := hp
          simp only [preGood, Bool.and_eq_true] at hp2
          exact hp2.1
        obtain ⟨l, hv⟩ : ∃ l, g.1.vec = .plist l := by
          cases hvv : g.1.vec <;> simp [preGood, hvv, ht] at hp ⊢
        rw [step_none rng st g l hd ht hv, ingest_eq _ g l hv]
        by_cases hcv : (convertAll l).isSome
        · rw [if_pos hcv]
          exact Or.inr ⟨_, _, _, _, rfl, rfl⟩
        · rw [if_neg hcv]
          exact Or.inl ⟨rfl, rfl⟩
      · have hp' : preGood g = false := by
          cases hb : preGood g
          · rfl
          · exact absurd hb hp
        rw [step_not_preGood rng st g hp']
        exact Or.inl ⟨rfl, rfl⟩

/-- Both index key lists of a run are duplicate-free. -/
lemma runScan_keys_nodup (rng : ℕ → ℚ) (gs : List (Glyph × String)) :
    ((runScan rng gs).exact.map Prod.fst).Nodup ∧
      ((runScan rng gs).buckets.map Prod.fst).Nodup := by
  suffices h : ∀ (gs : List (Glyph × String)) (st : ScanState),
      (st.exact.map Prod.fst).Nodup → (st.buckets.map Prod.fst).Nodup →
      ((runFrom rng st gs).exact.map Prod.fst).Nodup ∧
        ((runFrom rng st gs).buckets.map Prod.fst).Nodup by
    exact h gs initState (by simp [initState]) (by simp [initState])
  intro gs
  induction gs with
  | nil => intro st h1 h2; exact ⟨h1, h2⟩
  | cons g tl ih =>
      intro st h1 h2
      rw [show runFrom rng st (g :: tl) = runFrom rng (step rng st g) tl from rfl]
      rcases step_shape rng st g with ⟨he, hb⟩ | ⟨k, m, k', e, he, hb⟩
      · exact ih _ (by rw [he]; exact h1) (by rw [hb]; exact h2)
      · exact ih _ (by rw [he]; exact insertAppend_keys_nodup h1)
          (by rw [hb]; exact insertAppend_keys_nodup h2)

/-- No index of a run stores an empty member list. -/
lemma runScan_vals_ne (rng : ℕ → ℚ) (gs : List (Glyph × String)) :
    (∀ kv ∈ (runScan rng gs).exact, kv.2 ≠ []) ∧
      (∀ kv ∈ (runScan rng gs).buckets, kv.2 ≠ []) := by
  suffices h : ∀ (gs : List (Glyph × String)) (st : ScanState),
      (∀ kv ∈ st.exact, kv.2 ≠ []) → (∀ kv ∈ st.buckets, kv.2 ≠ []) →
      (∀ kv ∈ (runFrom rng st gs).exact, kv.2 ≠ []) ∧
        (∀ kv ∈ (runFrom rng st gs).buckets, kv.2 ≠ []) by
    exact h gs initState (by simp [initState]) (by simp [initState])
  intro gs
  induction gs with
  | nil => intro st h1 h2; exact ⟨h1, h2⟩
  | cons g tl ih =>
      intro st h1 h2
      rw [show runFrom rng st (g :: tl) = runFrom rng (step rng st g) tl from rfl]
      rcases step_shape rng st g with ⟨he, hb⟩ | ⟨k, m, k', e, he, hb⟩
      · exact ih _ (by rw [he]; exact h1) (by rw [hb]; exact h2)
      · exact ih _ (by rw [he]; exact insertAppend_vals_ne h1)
          (by rw [hb]; exact insertAppend_vals_ne h2)

/-- One loop iteration preserves the bucket-key invariant: every stored
entry's signature under the current basis is its bucket's key (together
with the bootstrapping fact that the buckets are empty until a dimension
is established). -/
lemma step_bucket_inv (rng : ℕ → ℚ) (st : ScanState) (g : Glyph × String)
    (h0 : st.dims = none → st.buckets = [])
    (h1 : ∀ kv ∈ st.buckets, ∀ e ∈ kv.2, sign_signature e.vraw st.projs = kv.1) :
    ((step rng st g).dims = none → (step rng st g).buckets = []) ∧
      (∀ kv ∈ (step rng st g).buckets, ∀ e ∈ kv.2,
        sign_signature e.vraw (step rng st g).projs = kv.1) := by
  cases hd : st.dims with
  | some d =>
      rw [step_some rng st d g hd]
      by_cases hg : goodAt d g
      · rw [if_pos hg]
        constructor
        · intro h
          simp [recordInsert, hd] at h
        · simp only [recordInsert]
          exact insertAppend_forall
            (fun (k : List ℕ) (e : Entry) => sign_signature e.vraw st.projs = k) h1 rfl
      · rw [if_neg hg]
        exact ⟨h0, h1⟩
  | none =>
      have hb : st.buckets = [] := h0 hd
      by_cases hp : preGood g = true
      · have ht : truthy g.1.id = true := by
          have hp2 := hp
          simp only [preGood, Bool.and_eq_true] at hp2
          exact hp2.1
        obtain ⟨l, hv⟩ : ∃ l, g.1.vec = .plist l := by
          cases hvv : g.1.vec <;> simp [preGood, hvv, ht] at hp ⊢
        rw [step_none rng st g l hd ht hv, ingest_eq _ g l hv]
        by_cases hcv : (convertAll l).isSome
        · rw [if_pos hcv]
          constructor
          · intro h
            simp [recordInsert] at h
          · simp only [recordInsert]
            refine insertAppend_forall
              (fun (k : List ℕ) (e : Entry) =>
                sign_signature e.vraw (gen_projections rng l.length N_PROJ) = k) ?_ rfl
            intro kv hkv
            rw [show ({ st with dims := some l.length, projs := gen_projections rng l.length N_PROJ } : ScanState).buckets = st.buckets from rfl, hb] at hkv
            cases hkv
        · rw [if_neg hcv]
          constructor
          · intro _
            exact hb
          · intro kv hkv
            rw [show ({ st with dims := some l.length, projs := gen_projections rng l.length N_PROJ } : ScanState).buckets = st.buckets from rfl, hb] at hkv
            cases hkv
      · have hp' : preGood g = false := by
          cases hb' : preGood g
          · rfl
          · exact absurd hb' hp
        rw [step_not_preGood rng st g hp']
        exact ⟨h0, h1⟩

/-- Every entry stored in a bucket has that bucket's key as the
signature of its raw vector under the run's basis. -/
lemma runScan_bucket_inv (rng : ℕ → ℚ) (gs : List (Glyph × String)) :
    ∀ kv ∈ (runScan rng gs).buckets, ∀ e ∈ kv.2,
      sign_signature e.vraw (runScan rng gs).projs = kv.1 := by
  suffices h : ∀ (gs : List (Glyph × String)) (st : ScanState),
      (st.dims = none → st.buckets = []) →
      (∀ kv ∈ st.buckets, ∀ e ∈ kv.2, sign_signature e.vraw st.projs = kv.1) →
      ((runFrom rng st gs).dims = none → (runFrom rng st gs).buckets = []) ∧
        (∀ kv ∈ (runFrom rng st gs).buckets, ∀ e ∈ kv.2,
          sign_signature e.vraw (runFrom rng st gs).projs = kv.1) by
    exact (h gs initState (fun _ => rfl) (by simp [initState])).2
  intro gs
  induction gs with
  | nil => intro st h0 h1; exact ⟨h0, h1⟩
  | cons g tl ih =>
      intro st h0 h1
      rw [show runFrom rng st (g :: tl) = runFrom rng (step rng st g) tl from rfl]
      obtain ⟨h0', h1'⟩ := step_bucket_inv rng st g h0 h1
      exact ih _ h0' h1'

/-! ### Acceptance soundness -/

/-- Unpacking an acceptance test at a fixed dimension. -/
lemma goodAt_spec {d : ℕ} {g : Glyph × String} (h : goodAt d g = true) :
    preGood g = true ∧ (vecList g).length = d ∧ (convertAll (vecList g)).isSome = true := by
  simpa [goodAt, Bool.and_eq_true, decide_eq_true_eq, and_assoc] using h

/-- Every accepted glyph passed the structural pre-check and converted
successfully. -/
lemma acceptedFrom_sound (gs : List (Glyph × String)) :
    ∀ (dims : Option ℕ), ∀ g ∈ acceptedFrom dims gs,
      preGood g = true ∧ (convertAll (vecList g)).isSome = true := by
  induction gs with
  | nil => intro dims g hg; cases hg
  | cons g' tl ih =>
      intro dims g hg
      by_cases hp : preGood g' = true
      · cases dims with
        | none =>
            cases hc : convertAll (vecList g') with
            | none =>
                rw [show acceptedFrom none (g' :: tl) =
                  acceptedFrom (some (vecList g').length) tl by
                  simp [acceptedFrom, hp, hc]] at hg
                exact ih _ g hg
            | some v =>
                rw [show acceptedFrom none (g' :: tl) =
                  g' :: acceptedFrom (some (vecList g').length) tl by
                  simp [acceptedFrom, hp, hc]] at hg
                rcases List.mem_cons.mp hg with rfl | hg'
                · exact ⟨hp, by simp [hc]⟩
                · exact ih _ g hg'
        | some d =>
            rw [show acceptedFrom (some d) (g' :: tl) = List.filter (goodAt d) (g' :: tl)
              from acceptedFrom_some d (g' :: tl)] at hg
            have := List.of_mem_filter hg
            obtain ⟨hpre, _, hcv⟩ := goodAt_spec this
            exact ⟨hpre, hcv⟩
      · have hp' : preGood g' = false := by
          cases hb : preGood g'
          · rfl
          · exact absurd hb hp
        rw [show acceptedFrom dims (g' :: tl) = acceptedFrom dims tl by
          simp [acceptedFrom, hp']] at hg
        exact ih _ g hg

/-- When the first structurally pre-good glyph converts successfully, it
heads the acceptance sequence. -/
lemma acceptedSeq_head (gs : List (Glyph × String)) (g₀ : Glyph × String)
    (hf : gs.find? preGood = some g₀) (hc : (convertAll (vecList g₀)).isSome = true) :
    ∃ tl, acceptedSeq gs = g₀ :: tl := by
  induction gs with
  | nil => cases hf
  | cons g tl ih =>
      by_cases hp : preGood g = true
      · rw [List.find?_cons_of_pos _ hp] at hf
        obtain rfl : g = g₀ := by injection hf
        obtain ⟨v, hv⟩ := Option.isSome_iff_exists.mp hc
        exact ⟨acceptedFrom (some (vecList g).length) tl,
          by simp [acceptedSeq, acceptedFrom, hp, hv]⟩
      · have hp' : preGood g = false := by
          cases hb : preGood g
          · rfl
          · exact absurd hb hp
        rw [List.find?_cons_of_neg _ (by simp [hp'])] at hf
        obtain ⟨tl', htl⟩ := ih hf
        exact ⟨tl', by simpa [acceptedSeq, acceptedFrom, hp'] using htl⟩

/-- Every accepted glyph has the vector length of the first structurally
pre-good glyph. -/
lemma acceptedSeq_len (gs : List (Glyph × String)) (g₀ : Glyph × String)
    (hf : gs.find? preGood = some g₀) :
    ∀ g ∈ acceptedSeq gs, (vecList g).length = (vecList g₀).length := by
  induction gs with
  | nil => cases hf
  | cons g' tl ih =>
      intro g hg
      by_cases hp : preGood g' = true
      · rw [List.find?_cons_of_pos _ hp] at hf
        obtain rfl : g' = g₀ := by injection hf
        cases hc : convertAll (vecList g') with
        | none =>
            rw [show acceptedSeq (g' :: tl) = acceptedFrom (some (vecList g').length) tl by
              simp [acceptedSeq, acceptedFrom, hp, hc]] at hg
            rw [acceptedFrom_some] at hg
            exact (goodAt_spec (List.of_mem_filter hg)).2.1
        | some v =>
            rw [show acceptedSeq (g' :: tl) =
              g' :: acceptedFrom (some (vecList g').length) tl by
              simp [acceptedSeq, acceptedFrom, hp, hc]] at hg
            rcases List.mem_cons.mp hg with rfl | hg'
            · rfl
            · rw [acceptedFrom_some] at hg'
              exact (goodAt_spec (List.of_mem_filter hg')).2.1
      · have hp' : preGood g' = false := by
          cases hb : preGood g'
          · rfl
          · exact absurd hb hp
        rw [List.find?_cons_of_neg _ (by simp [hp'])] at hf
        rw [show acceptedSeq (g' :: tl) = acceptedSeq tl by
          simp [acceptedSeq, acceptedFrom, hp']] at hg
        exact ih hf g hg

/-- The signature of an empty vector is all ones: every accumulated dot
product is exactly 0 and the tie convention yields bit 1. -/
lemma sign_signature_nil (R : List (List PyFloat)) :
    sign_signature [] R = List.replicate R.length 1 := by
  induction R with
  | nil => rfl
  | cons r R ih =>
      rw [show sign_signature [] (r :: R) = 1 :: sign_signature [] R from rfl, ih,
        List.length_cons, List.replicate_succ]

/-- A key whose lookup is nonempty is present in the dictionary with
exactly that value list. -/
lemma mem_of_findVals_ne {κ μ : Type} [DecidableEq κ] (idx : List (κ × List μ)) (k : κ)
    (h : findVals idx k ≠ []) : (k, findVals idx k) ∈ idx := by
  induction idx with
  | nil => exact absurd rfl h
  | cons kv rest ih =>
      obtain ⟨k₀, ms⟩ := kv
      by_cases hk : k = k₀
      · subst hk
        rw [show findVals ((k, ms) :: rest) k = ms by simp [findVals]]
        exact List.mem_cons_self _ _
      · rw [show findVals ((k₀, ms) :: rest) k = findVals rest k by simp [findVals, hk]] at h ⊢
        exact List.mem_cons_of_mem _ (ih h)

/-! ### Same-dimension runs -/

/-- When every structurally pre-good glyph has vector length `D`,
acceptance is order-free: the accepted glyphs are exactly those passing
`goodAt D`. -/
lemma acceptedSeq_of_shape (gs : List (Glyph × String)) (D : ℕ)
    (hshape : ∀ g ∈ gs, preGood g = true → (vecList g).length = D) :
    acceptedSeq gs = gs.filter (goodAt D) := by
  induction gs with
  | nil => rfl
  | cons g tl ih =>
      have hshape' : ∀ g' ∈ tl, preGood g' = true → (vecList g').length = D :=
        fun g' hg' => hshape g' (List.mem_cons_of_mem _ hg')
      by_cases hp : preGood g = true
      · have hlen : (vecList g).length = D := hshape g (List.mem_cons_self _ _) hp
        cases hc : convertAll (vecList g) with
        | some v =>
            rw [show acceptedSeq (g :: tl) = g :: acceptedFrom (some (vecList g).length) tl by
              simp [acceptedSeq, acceptedFrom, hp, hc]]
            rw [hlen, acceptedFrom_some, List.filter_cons,
              if_pos (by simp [goodAt, hp, hlen, hc])]
        | none =>
            rw [show acceptedSeq (g :: tl) = acceptedFrom (some (vecList g).length) tl by
              simp [acceptedSeq, acceptedFrom, hp, hc]]
            rw [hlen, acceptedFrom_some, List.filter_cons, if_neg (by simp [goodAt, hc])]
      · have hp' : preGood g = false := by
          cases hb : preGood g
          · rfl
          · exact absurd hb hp
        rw [show acceptedSeq (g :: tl) = acceptedSeq tl by
          simp [acceptedSeq, acceptedFrom, hp']]
        rw [ih hshape', List.filter_cons, if_neg (by simp [goodAt, hp'])]

/-- Filtering accepted glyphs by their signature commutes with taking
their bucket entries. -/
lemma accepted_filter_sig (l : List (Glyph × String)) (B : List (List PyFloat)) (s : List ℕ) :
    (l.filter (fun g => sigOf B g = s)).map entryOf =
      (l.map entryOf).filter (fun e => decide (sign_signature e.vraw B = s)) := by
  induction l with
  | nil => rfl
  | cons g tl ih =>
      by_cases h : sigOf B g = s
      · rw [List.filter_cons, if_pos (by simpa using h), List.map_cons, List.map_cons,
          List.filter_cons, if_pos (by simpa [entryOf, sigOf] using h), ih]
      · rw [List.filter_cons, if_neg (by simpa using h), List.map_cons,
          List.filter_cons, if_neg (by simpa [entryOf, sigOf] using h), ih]

/-- The ids of the accepted entries are the ids of the accepted glyphs. -/
lemma map_gid_acceptedEntries (D : ℕ) (gs : List (Glyph × String)) :
    (acceptedEntries D gs).map Entry.gid = (gs.filter (goodAt D)).map (fun g => g.1.id) := by
  rw [acceptedEntries, List.map_map]
  rfl

/-- When every structurally pre-good glyph has length `D` and one
exists, the run's basis is the `D`-dimensional one. -/
lemma basisOf_of_shape (rng : ℕ → ℚ) (gs : List (Glyph × String)) (D : ℕ)
    (hshape : ∀ g ∈ gs, preGood g = true → (vecList g).length = D)
    (hx : ∃ g ∈ gs, preGood g = true) :
    basisOf rng gs = gen_projections rng D N_PROJ := by
  have hsome : (gs.find? preGood).isSome := by
    rw [List.find?_isSome]
    obtain ⟨g, hg, hp⟩ := hx
    exact ⟨g, hg, hp⟩
  obtain ⟨g₁, hg₁⟩ := Option.isSome_iff_exists.mp hsome
  have hmem := List.mem_of_find?_eq_some hg₁
  have hpre := List.find?_some hg₁
  simp [basisOf, hg₁, hshape g₁ hmem hpre]

/-- Characterization of the reported near-clone pairs of a run whose
structurally pre-good glyphs all have length `D` and whose accepted ids
are pairwise distinct: an unordered pair of entries is reported exactly
when both entries are accepted, distinct, share a signature under the
run's basis, and pass the similarity test. -/
lemma nearPairs_char (rng : ℕ → ℚ) (gs : List (Glyph × String)) (D : ℕ)
    (hshape : ∀ g ∈ gs, preGood g = true → (vecList g).length = D)
    (hids : ((gs.filter (goodAt D)).map (fun g => g.1.id)).Nodup)
    (x y : Entry) :
    ((x, y) ∈ nearPairsRun rng gs ∨ (y, x) ∈ nearPairsRun rng gs) ↔
      (sign_signature x.vraw (basisOf rng gs) = sign_signature y.vraw (basisOf rng gs) ∧
        x ≠ y ∧ x ∈ acceptedEntries D gs ∧ y ∈ acceptedEntries D gs ∧
        nearOK x.vraw y.vraw = true) := by
  have hacc : acceptedSeq gs = gs.filter (goodAt D) := acceptedSeq_of_shape gs D hshape
  obtain ⟨-, -, -, -, hbuckets⟩ := runScan_char rng gs
  obtain ⟨-, hknB⟩ := runScan_keys_nodup rng gs
  have hgidE : ((acceptedEntries D gs).map Entry.gid).Nodup := by
    rw [map_gid_acceptedEntries]
    exact hids
  have hEnd : (acceptedEntries D gs).Nodup := hgidE.of_map
  have hval : ∀ kv ∈ (runScan rng gs).buckets,
      kv.2 = (acceptedEntries D gs).filter
        (fun e => decide (sign_signature e.vraw (basisOf rng gs) = kv.1)) := by
    intro kv hkv
    have hfv : findVals (runScan rng gs).buckets kv.1 = kv.2 := findVals_of_mem hknB hkv
    rw [hbuckets kv.1, hacc, accepted_filter_sig] at hfv
    rw [acceptedEntries]
    exact hfv.symm
  have hmemE : ∀ r : Entry × Entry, r ∈ bucketPairs (runScan rng gs).buckets →
      r.1 ∈ acceptedEntries D gs ∧ r.2 ∈ acceptedEntries D gs := by
    intro r hr
    obtain ⟨kv, hkv, hrp⟩ := List.mem_flatMap.mp hr
    obtain ⟨h1, h2⟩ := mem_of_mem_pairsOf hrp
    rw [hval kv hkv] at h1 h2
    exact ⟨List.mem_of_mem_filter h1, List.mem_of_mem_filter h2⟩
  have hfwd : ∀ a b : Entry, (a, b) ∈ nearPairsRun rng gs →
      sign_signature a.vraw (basisOf rng gs) = sign_signature b.vraw (basisOf rng gs) ∧
        a ≠ b ∧ a ∈ acceptedEntries D gs ∧ b ∈ acceptedEntries D gs ∧
        nearOK a.vraw b.vraw = true := by
    intro a b hab
    have hab' : (a, b) ∈ ((bucketPairs (runScan rng gs).buckets).foldl scanStep ([], [])).2 :=
      hab
    rcases scanFold_mem _ _ _ _ hab' with h | h
    · cases h
    obtain ⟨hbp, hnear⟩ := h
    obtain ⟨kv, hkv, hpb⟩ := List.mem_flatMap.mp hbp
    have hnd2 : kv.2.Nodup := by
      rw [hval kv hkv]
      exact hEnd.filter _
    have hne : a ≠ b := ne_of_mem_pairsOf hnd2 hpb
    obtain ⟨ha2, hb2⟩ := mem_of_mem_pairsOf hpb
    rw [hval kv hkv] at ha2 hb2
    have hsa : sign_signature a.vraw (basisOf rng gs) = kv.1 := by
      simpa using List.of_mem_filter ha2
    have hsb : sign_signature b.vraw (basisOf rng gs) = kv.1 := by
      simpa using List.of_mem_filter hb2
    exact ⟨hsa.trans hsb.symm, hne, List.mem_of_mem_filter ha2,
      List.mem_of_mem_filter hb2, hnear⟩
  have hpairsnd : ((bucketPairs (runScan rng gs).buckets).map keyOf).Nodup := by
    have hflat : (bucketPairs (runScan rng gs).buckets).Nodup := by
      refine List.nodup_flatMap.mpr ⟨?_, ?_⟩
      · intro kv hkv
        rw [hval kv hkv]
        exact pairsOf_nodup (hEnd.filter _)
      · have hkp0 : List.Pairwise (fun a b : List ℕ => a ≠ b)
            ((runScan rng gs).buckets.map Prod.fst) := hknB
        rw [List.pairwise_map] at hkp0
        refine List.Pairwise.imp_of_mem ?_ hkp0
        intro kv1 kv2 h1 h2 hne12
        intro p hpa hpb
        have ha1 := (mem_of_mem_pairsOf hpa).1
        have hb1 := (mem_of_mem_pairsOf hpb).1
        rw [hval kv1 h1] at ha1
        rw [hval kv2 h2] at hb1
        have hs1 : sign_signature p.1.vraw (basisOf rng gs) = kv1.1 := by
          simpa using List.of_mem_filter ha1
        have hs2 : sign_signature p.1.vraw (basisOf rng gs) = kv2.1 := by
          simpa using List.of_mem_filter hb1
        exact hne12 (hs1.symm.trans hs2)
    refine List.Nodup.map_on ?_ hflat
    intro p hp q hq hkey
    have hinj := List.inj_on_of_nodup_map hgidE
    have h1 : p.1 = q.1 :=
      hinj (hmemE p hp).1 (hmemE q hq).1 (congrArg Prod.fst hkey)
    have h2 : p.2 = q.2 :=
      hinj (hmemE p hp).2 (hmemE q hq).2 (congrArg Prod.snd hkey)
    exact Prod.ext h1 h2
  have hscan : scanPairs (runScan rng gs).buckets =
      (bucketPairs (runScan rng gs).buckets).filter
        (fun p => nearOK p.1.vraw p.2.vraw) := by
    have h := scanFold_eq_filter _ [] [] hpairsnd (by simp)
    simpa [scanPairs] using h
  constructor
  · rintro (h | h)
    · exact hfwd x y h
    · obtain ⟨hs, hne, hyE, hxE, hnear⟩ := hfwd y x h
      exact ⟨hs.symm, hne.symm, hxE, hyE, by rw [nearOK_comm]; exact hnear⟩
  · rintro ⟨hsig, hne, hxE, hyE, hnear⟩
    have hfs : findVals (runScan rng gs).buckets (sign_signature x.vraw (basisOf rng gs)) =
        (acceptedEntries D gs).filter
          (fun e => decide (sign_signature e.vraw (basisOf rng gs) =
            sign_signature x.vraw (basisOf rng gs))) := by
      rw [hbuckets _, hacc, accepted_filter_sig, acceptedEntries]
    have hxf : x ∈ (acceptedEntries D gs).filter
        (fun e => decide (sign_signature e.vraw (basisOf rng gs) =
          sign_signature x.vraw (basisOf rng gs))) :=
      List.mem_filter.mpr ⟨hxE, by simp⟩
    have hyf : y ∈ (acceptedEntries D gs).filter
        (fun e => decide (sign_signature e.vraw (basisOf rng gs) =
          sign_signature x.vraw (basisOf rng gs))) :=
      List.mem_filter.mpr ⟨hyE, by simp [hsig]⟩
    have hne' : findVals (runScan rng gs).buckets
        (sign_signature x.vraw (basisOf rng gs)) ≠ [] := by
      rw [hfs]
      intro hnil
      rw [hnil] at hxf
      cases hxf
    have hmemb := mem_of_findVals_ne (runScan rng gs).buckets
      (sign_signature x.vraw (basisOf rng gs)) hne'
    have hnd2 : (findVals (runScan rng gs).buckets
        (sign_signature x.vraw (basisOf rng gs))).Nodup := by
      rw [hfs]
      exact hEnd.filter _
    have hx2 : x ∈ findVals (runScan rng gs).buckets
        (sign_signature x.vraw (basisOf rng gs)) := by
      rw [hfs]
      exact hxf
    have hy2 : y ∈ findVals (runScan rng gs).buckets
        (sign_signature x.vraw (basisOf rng gs)) := by
      rw [hfs]
      exact hyf
    rcases mem_pairsOf_of_mem hnd2 hx2 hy2 hne with hpair | hpair
    · refine Or.inl ?_
      show (x, y) ∈ scanPairs (runScan rng gs).buckets
      rw [hscan]
      refine List.mem_filter.mpr ⟨?_, by simpa using hnear⟩
      exact List.mem_flatMap.mpr ⟨_, hmemb, hpair⟩
    · refine Or.inr ?_
      show (y, x) ∈ scanPairs (runScan rng gs).buckets
      rw [hscan]
      refine List.mem_filter.mpr ⟨?_, by simp; rw [nearOK_comm]; exact hnear⟩
      exact List.mem_flatMap.mpr ⟨_, hmemb, hpair⟩

/-! ### Claim theorems -/

/-- C7: for every raw vector `v` and basis `R`, `sign_signature v R` is
the ordered tuple with, per hyperplane, bit 1 exactly when the dot
product of `v` with that hyperplane compares `>= 0` (so a tie, dot
product exactly zero, always yields bit 1). -/
theorem spec_c7 (v : List PyFloat) (R : List (List PyFloat)) :
    sign_signature v R =
      R.map (fun r => if pyGe (dotF v r) (PyFloat.fin 0) then 1 else 0) ∧
    (∀ (k : ℕ) (r : List PyFloat), R.get? k = some r → dotF v r = PyFloat.fin 0 →
      (sign_signature v R).get? k = some 1) := by
  have hmap : sign_signature v R =
      R.map (fun r => if pyGe (dotF v r) (PyFloat.fin 0) then 1 else 0) := rfl
  refine ⟨hmap, ?_⟩
  intro k r hk h0
  rw [hmap, List.get?_map, hk]
  simp [h0, pyGe]

/-- C7 witness: the vector `(1, -1)` ties against the hyperplane
`(1, 1)` and receives bit 1. -/
theorem spec_c7_witness :
    dotF [PyFloat.fin 1, PyFloat.fin (-1)] [PyFloat.fin 1, PyFloat.fin 1] = PyFloat.fin 0 ∧
    (sign_signature [PyFloat.fin 1, PyFloat.fin (-1)]
      [[PyFloat.fin 1, PyFloat.fin 1]]).get? 0 = some 1 :=
  ⟨by decide,
    (spec_c7 [PyFloat.fin 1, PyFloat.fin (-1)] [[PyFloat.fin 1, PyFloat.fin 1]]).2 0
      [PyFloat.fin 1, PyFloat.fin 1] (by decide) (by decide)⟩

/-- C8: `norm` returns 1 whenever the Euclidean norm would be exactly
zero, is always strictly positive, and hence the denominator of `cos`
is never zero, so an all-zero vector cannot fault the comparison. -/
theorem spec_c8 (a b : List ℚ) :
    0 < norm a ∧ (sumSq a = 0 → norm a = 1) ∧ norm a * norm b ≠ 0 := by
  refine ⟨norm_pos a, ?_, ?_⟩
  · intro h
    rw [show norm a = if sumSq a = 0 then (1 : ℝ) else Real.sqrt ((sumSq a : ℚ) : ℝ) from rfl,
      if_pos h]
  · exact ne_of_gt (mul_pos (norm_pos a) (norm_pos b))

/-- C8 witness: the all-zero vector has norm 1 and a nonzero
denominator against any partner. -/
theorem spec_c8_witness :
    0 < norm [(0 : ℚ), 0] ∧ norm [(0 : ℚ), 0] = 1 ∧
      norm [(0 : ℚ), 0] * norm [(1 : ℚ), 2] ≠ 0 :=
  ⟨(spec_c8 [0, 0] [1, 2]).1, (spec_c8 [0, 0] [1, 2]).2.1 (by decide),
    (spec_c8 [0, 0] [1, 2]).2.2⟩

/-- C4 counterexample: `{id:"a", vec:[null]}` passes the structural
pre-check, establishes `D = 1` and the basis, and only then fails the
float conversion and is skipped; the following valid record
`{id:"b", vec:[1,2]}` is dropped for dimension mismatch.  The run ends
with `D` established as 1 although no record at all was accepted, so
a record rejected during validation did establish `D`, contradicting
the claim. -/
theorem spec_c4_counterexample :
    (runScan rngZero [glyphNone, glyphB2]).dims = some 1 ∧
    (runScan rngZero [glyphNone, glyphB2]).total = 0 := by
  decide

/-- C4 amended: the dimensionality and the projection basis are
established exactly once, from the first record whose id is truthy and
whose vec field is a list — even when that record is later skipped
because a vector entry fails the float conversion; records failing the
id or list check never establish them. -/
theorem spec_c4_amended (rng : ℕ → ℚ) (gs : List (Glyph × String)) :
    (runScan rng gs).dims = dimsOf gs ∧ (runScan rng gs).projs = basisOf rng gs :=
  ⟨(runScan_char rng gs).1, (runScan_char rng gs).2.1⟩

/-- C2 counterexample: the record `{id:"a", vec:[NaN]}` converts
successfully (`float(nan)` is nan), reaches the Canonicalizer, and is
inserted into both the exact index (under the serialization "nan,") and
a signature bucket — contradicting the claim that non-finite vectors
are rejected before the Canonicalizer and inserted into neither index. -/
theorem spec_c2_counterexample :
    findVals (runScan rngZero [glyphNan]).exact (hash_vec [PyFloat.nan]) =
      [(PyVal.pstr "a", "f.json")] ∧
    allEntries (runScan rngZero [glyphNan]) =
      [⟨PyVal.pstr "a", "f.json", [PyFloat.nan], [PyFloat.nan]⟩] ∧
    (runScan rngZero [glyphNan]).total = 1 := by
  decide

/-- C2 amended: the pipeline silently skips every record whose id is
falsy, whose vec field is not a list, whose vector length mismatches
the established dimension, or whose entries raise in `float()`; a
skipped record is inserted into neither index (every index member comes
from an accepted record, and every accepted record passed the
structural pre-check and converted successfully).  Non-finite values,
however, convert successfully and are NOT rejected. -/
theorem spec_c2_amended (rng : ℕ → ℚ) (gs : List (Glyph × String)) :
    (∀ g ∈ acceptedSeq gs, preGood g = true ∧ (convertAll (vecList g)).isSome = true) ∧
    (∀ h, findVals (runScan rng gs).exact h =
      ((acceptedSeq gs).filter (fun g => hashOf g = h)).map memberOf) ∧
    (∀ s, findVals (runScan rng gs).buckets s =
      ((acceptedSeq gs).filter (fun g => sigOf (basisOf rng gs) g = s)).map entryOf) :=
  ⟨fun g hg => acceptedFrom_sound gs none g hg,
    (runScan_char rng gs).2.2.2.1, (runScan_char rng gs).2.2.2.2⟩

/-- C2 witness: on a run with one valid and one invalid record, the
accepted record's index entry is exactly its contributed member. -/
theorem spec_c2_witness :
    (preGood glyphA = true ∧ (convertAll (vecList glyphA)).isSome = true) ∧
    findVals (runScan rngZero [glyphA, glyphNone]).exact (hashOf glyphA) =
      [memberOf glyphA] := by
  constructor
  · exact (spec_c2_amended rngZero [glyphA, glyphNone]).1 glyphA (by decide)
  · rw [(spec_c2_amended rngZero [glyphA, glyphNone]).2.1 (hashOf glyphA)]
    decide

/-- C1 counterexample: ingesting `{a,[1,2,3]}`, `{b,[1,2,3]}`,
`{c,[1,2,3.0000000000000004]}` produces exactly one exact cluster, and
it contains only a and b: the perturbed component has exactly 17
significant digits, so 17-significant-figure rounding preserves it and
c hashes differently, contradicting the claimed cluster `{a,b,c}`. -/
theorem spec_c1_counterexample :
    clustersOf (runScan rngZero [glyphA, glyphB, glyphC]) =
      [[(PyVal.pstr "a", "f1.json"), (PyVal.pstr "b", "f1.json")]] ∧
    (∀ cl ∈ clustersOf (runScan rngZero [glyphA, glyphB, glyphC]),
      (PyVal.pstr "c", "f2.json") ∉ cl) := by
  decide

/-- C1 amended: the scenario produces exactly one exact cluster,
containing a and b; c receives a different CanonicalKey and ExactHash
because `3.0000000000000004` is representable within 17 significant
figures (the perturbation is not below the rounding threshold), while a
and b share one hash. -/
theorem spec_c1_amended :
    clustersOf (runScan rngZero [glyphA, glyphB, glyphC]) =
      [[(PyVal.pstr "a", "f1.json"), (PyVal.pstr "b", "f1.json")]] ∧
    hashOf glyphC ≠ hashOf glyphA ∧
    hashOf glyphA = hashOf glyphB := by
  decide

/-- C6: every near-clone pair a run reports consists of two entries with
identical signatures under the run's basis — pairs are drawn only from
within single buckets, so records with different signatures are never
reported, whatever their cosine similarity. -/
theorem spec_c6 (rng : ℕ → ℚ) (gs : List (Glyph × String)) (p : Entry × Entry)
    (hp : p ∈ nearPairsRun rng gs) :
    sign_signature p.1.vraw (runScan rng gs).projs =
      sign_signature p.2.vraw (runScan rng gs).projs := by
  have hp' : p ∈ ((bucketPairs (runScan rng gs).buckets).foldl scanStep ([], [])).2 := hp
  have h1 : p ∈ bucketPairs (runScan rng gs).buckets := by
    rcases scanFold_mem _ _ _ _ hp' with h | h
    · cases h
    · exact h.1
  obtain ⟨b, hb, hpb⟩ := List.mem_flatMap.mp h1
  obtain ⟨hm1, hm2⟩ := mem_of_mem_pairsOf hpb
  rw [runScan_bucket_inv rng gs b hb p.1 hm1, runScan_bucket_inv rng gs b hb p.2 hm2]

/-- C6 witness: two identical one-dimensional records land in one
bucket, their pair is reported, and their signatures agree. -/
theorem spec_c6_witness :
    ((entryOf glyphU, entryOf glyphV) ∈ nearPairsRun rngZero [glyphU, glyphV]) ∧
    sign_signature (entryOf glyphU).vraw (runScan rngZero [glyphU, glyphV]).projs =
      sign_signature (entryOf glyphV).vraw (runScan rngZero [glyphU, glyphV]).projs :=
  ⟨by decide,
    spec_c6 rngZero [glyphU, glyphV] (entryOf glyphU, entryOf glyphV) (by decide)⟩

/-- C9: over a whole run, at most one near-clone pair is emitted per
ordered id pair — the seen-pair guard keys on the two ids alone (source
tags are not part of the key), so any later qualifying pair with the
same id pair is suppressed. -/
theorem spec_c9 (rng : ℕ → ℚ) (gs : List (Glyph × String)) (x y : PyVal) :
    ((nearPairsRun rng gs).filter (fun p => decide (keyOf p = (x, y)))).length ≤ 1 := by
  have h := scanFold_keys (bucketPairs (runScan rng gs).buckets) [] []
    (by simp) (by simp)
  have hnd : ((nearPairsRun rng gs).map keyOf).Nodup := h.2
  exact length_filter_le_one hnd (x, y)

/-- C5: when the checked pairs carry pairwise distinct id-pair keys (no
id pair is seen twice), the scanner reports a candidate pair of finite
vectors exactly when their cosine similarity is at least `NEAR_THRESH`;
the comparison is `>=`, so a pair exactly at the threshold is reported
and one strictly below is not. -/
theorem spec_c5 (bs : List (List ℕ × List Entry)) (x y : Entry)
    (hnd : ((bucketPairs bs).map keyOf).Nodup)
    (hx : allFinite x.vraw = true) (hy : allFinite y.vraw = true) :
    (x, y) ∈ scanPairs bs ↔
      ((x, y) ∈ bucketPairs bs ∧ (NEAR_THRESH : ℝ) ≤ cos (toQ x.vraw) (toQ y.vraw)) := by
  have heq : scanPairs bs = (bucketPairs bs).filter (fun p => nearOK p.1.vraw p.2.vraw) := by
    have h := scanFold_eq_filter (bucketPairs bs) [] [] hnd (by simp)
    simpa [scanPairs] using h
  rw [heq, List.mem_filter]
  constructor
  · rintro ⟨h1, h2⟩
    exact ⟨h1, (nearOK_iff_cos x.vraw y.vraw hx hy).mp h2⟩
  · rintro ⟨h1, h2⟩
    exact ⟨h1, (nearOK_iff_cos x.vraw y.vraw hx hy).mpr h2⟩

/-- C5 witness: the vectors `(1999,0,0,0,0)` and `(1999,62,11,5,3)`
have cosine similarity exactly `1999^2/(1999*2000) = 0.9995`, the
threshold, and their bucketed pair is reported. -/
theorem spec_c5_witness :
    (entryP, entryQ) ∈ scanPairs bucketC5 ∧
    (NEAR_THRESH : ℝ) ≤ cos (toQ entryP.vraw) (toQ entryQ.vraw) := by
  have hcos : cos (toQ entryP.vraw) (toQ entryQ.vraw) = ((NEAR_THRESH : ℚ) : ℝ) := by
    have h1 : toQ entryP.vraw = [(1999 : ℚ), 0, 0, 0, 0] := by decide
    have h2 : toQ entryQ.vraw = [(1999 : ℚ), 62, 11, 5, 3] := by decide
    have hd : dot [(1999 : ℚ), 0, 0, 0, 0] [(1999 : ℚ), 62, 11, 5, 3] = 1999 * 1999 := by
      decide
    have hsa : sumSq [(1999 : ℚ), 0, 0, 0, 0] = 1999 ^ 2 := by decide
    have hsb : sumSq [(1999 : ℚ), 62, 11, 5, 3] = 2000 ^ 2 := by decide
    rw [h1, h2]
    unfold cos
    rw [hd, norm_sq_repr, norm_sq_repr, hsa, hsb, if_neg (by norm_num), if_neg (by norm_num)]
    have e1 : (((1999 : ℚ) ^ 2 : ℚ) : ℝ) = (1999 : ℝ) ^ 2 := by push_cast; ring
    have e2 : (((2000 : ℚ) ^ 2 : ℚ) : ℝ) = (2000 : ℝ) ^ 2 := by push_cast; ring
    rw [e1, e2, Real.sqrt_sq (by norm_num), Real.sqrt_sq (by norm_num)]
    rw [show (NEAR_THRESH : ℚ) = (1999 / 2000 : ℚ) by norm_num [NEAR_THRESH]]
    push_cast
    norm_num
  refine ⟨?_, le_of_eq hcos.symm⟩
  exact (spec_c5 bucketC5 entryP entryQ (by decide) (by decide) (by decide)).mpr
    ⟨by decide, le_of_eq hcos.symm⟩

/-- C10: when the first structurally pre-good record carries the empty
list, dimensionality is established as 0 and the record is accepted (at
least one record counts); every stored entry has an empty raw and
rounded vector (all nonempty records are dropped); all exact-index keys
equal the empty serialization, so there is at most one exact group; all
buckets carry the all-ones 12-bit signature; no near-clone pair is
reported, and indeed the cosine of two empty vectors evaluates to 0,
below the positive threshold. -/
theorem spec_c10 (rng : ℕ → ℚ) (gs : List (Glyph × String)) (g₀ : Glyph × String)
    (hf : gs.find? preGood = some g₀) (hv : g₀.1.vec = PyVal.plist []) :
    (runScan rng gs).dims = some 0 ∧
    1 ≤ (runScan rng gs).total ∧
    (∀ e ∈ allEntries (runScan rng gs), e.vraw = [] ∧ e.vr = []) ∧
    (∀ kv ∈ (runScan rng gs).exact, kv.1 = hash_vec []) ∧
    (runScan rng gs).exact.length ≤ 1 ∧
    (∀ kv ∈ (runScan rng gs).buckets, kv.1 = List.replicate N_PROJ 1) ∧
    nearPairsRun rng gs = [] ∧
    cos ([] : List ℚ) [] = 0 ∧ (0 : ℝ) < ((NEAR_THRESH : ℚ) : ℝ) := by
  obtain ⟨hdims, hprojs, htotal, hexact, hbuckets⟩ := runScan_char rng gs
  have hvl : vecList g₀ = [] := by simp [vecList, hv]
  have hlen0 : (vecList g₀).length = 0 := by rw [hvl]; rfl
  have hdimseq : dimsOf gs = some 0 := by simp [dimsOf, hf, hlen0]
  have hconv : (convertAll (vecList g₀)).isSome = true := by rw [hvl]; rfl
  have hlen : ∀ g ∈ acceptedSeq gs, vecList g = [] := by
    intro g hg
    have h := acceptedSeq_len gs g₀ hf g hg
    rw [hlen0] at h
    exact List.length_eq_zero.mp h
  have hraw : ∀ g ∈ acceptedSeq gs, rawOf g = [] := by
    intro g hg
    rw [rawOf, hlen g hg]
    rfl
  obtain ⟨hknE, hknB⟩ := runScan_keys_nodup rng gs
  obtain ⟨hvnE, hvnB⟩ := runScan_vals_ne rng gs
  have hBlen : (basisOf rng gs).length = N_PROJ := by
    simp [basisOf, hf, gen_projections]
  have hentries : ∀ e ∈ allEntries (runScan rng gs), e.vraw = [] ∧ e.vr = [] := by
    intro e he
    have he' : e ∈ (runScan rng gs).buckets.flatMap (fun b => b.2) := he
    obtain ⟨kv, hkv, hekv⟩ := List.mem_flatMap.mp he'
    have hfv : findVals (runScan rng gs).buckets kv.1 = kv.2 := findVals_of_mem hknB hkv
    have he2 : e ∈ ((acceptedSeq gs).filter
        (fun g => sigOf (basisOf rng gs) g = kv.1)).map entryOf := by
      rw [← hbuckets kv.1, hfv]
      exact hekv
    obtain ⟨g, hg, rfl⟩ := List.mem_map.mp he2
    have hgacc : g ∈ acceptedSeq gs := List.mem_of_mem_filter hg
    constructor
    · rw [show (entryOf g).vraw = rawOf g from rfl, hraw g hgacc]
    · rw [show (entryOf g).vr = round_vec (rawOf g) PREC from rfl, hraw g hgacc]
      rfl
  have hkeys : ∀ kv ∈ (runScan rng gs).exact, kv.1 = hash_vec [] := by
    intro kv hkv
    have hfv : findVals (runScan rng gs).exact kv.1 = kv.2 := findVals_of_mem hknE hkv
    have hne : kv.2 ≠ [] := hvnE kv hkv
    rw [hexact kv.1] at hfv
    cases hfilter : (acceptedSeq gs).filter (fun g => hashOf g = kv.1) with
    | nil =>
        rw [hfilter] at hfv
        exact absurd hfv.symm hne
    | cons g rest =>
        have hgmem : g ∈ (acceptedSeq gs).filter (fun g => hashOf g = kv.1) := by
          rw [hfilter]
          exact List.mem_cons_self _ _
        have hgh : hashOf g = kv.1 := by simpa using List.of_mem_filter hgmem
        have hgh0 : hashOf g = hash_vec [] := by
          rw [hashOf, hraw g (List.mem_of_mem_filter hgmem)]
          rfl
        rw [← hgh, hgh0]
  refine ⟨by rw [hdims, hdimseq], ?_, hentries, hkeys, ?_, ?_, ?_, ?_,
    by norm_num [NEAR_THRESH]⟩
  · rw [htotal]
    obtain ⟨tl, htl⟩ := acceptedSeq_head gs g₀ hf hconv
    rw [htl]
    simp
  · cases hex : (runScan rng gs).exact with
    | nil => simp
    | cons kv1 rest =>
        cases rest with
        | nil => simp
        | cons kv2 rest2 =>
            exfalso
            have h1 : kv1.1 = hash_vec [] := hkeys kv1 (by rw [hex]; exact List.mem_cons_self _ _)
            have h2 : kv2.1 = hash_vec [] := hkeys kv2
              (by rw [hex]; exact List.mem_cons_of_mem _ (List.mem_cons_self _ _))
            rw [hex, List.map_cons, List.map_cons] at hknE
            exact (List.nodup_cons.mp hknE).1
              (by rw [h1, ← h2]; exact List.mem_cons_self _ _)
  · intro kv hkv
    have hfv : findVals (runScan rng gs).buckets kv.1 = kv.2 := findVals_of_mem hknB hkv
    have hne : kv.2 ≠ [] := hvnB kv hkv
    rw [hbuckets kv.1] at hfv
    cases hfilter : (acceptedSeq gs).filter (fun g => sigOf (basisOf rng gs) g = kv.1) with
    | nil =>
        rw [hfilter] at hfv
        exact absurd hfv.symm hne
    | cons g rest =>
        have hgmem : g ∈ (acceptedSeq gs).filter
            (fun g => sigOf (basisOf rng gs) g = kv.1) := by
          rw [hfilter]
          exact List.mem_cons_self _ _
        have hgh : sigOf (basisOf rng gs) g = kv.1 := by simpa using List.of_mem_filter hgmem
        have hgh0 : sigOf (basisOf rng gs) g = List.replicate N_PROJ 1 := by
          rw [sigOf, hraw g (List.mem_of_mem_filter hgmem), sign_signature_nil, hBlen]
        rw [← hgh, hgh0]
  · rw [List.eq_nil_iff_forall_not_mem]
    intro p hp
    have hp' : p ∈ ((bucketPairs (runScan rng gs).buckets).foldl scanStep ([], [])).2 := hp
    rcases scanFold_mem _ _ _ _ hp' with h | h
    · cases h
    · obtain ⟨hbp, hnear⟩ := h
      obtain ⟨b, hb, hpb⟩ := List.mem_flatMap.mp hbp
      obtain ⟨hm1, hm2⟩ := mem_of_mem_pairsOf hpb
      have h1 : p.1.vraw = [] :=
        (hentries p.1 (List.mem_flatMap.mpr ⟨b, hb, hm1⟩)).1
      have h2 : p.2.vraw = [] :=
        (hentries p.2 (List.mem_flatMap.mpr ⟨b, hb, hm2⟩)).1
      rw [h1, h2] at hnear
      exact absurd hnear (by decide)
  · rw [show cos ([] : List ℚ) [] = ((dot ([] : List ℚ) [] : ℚ) : ℝ) / (norm [] * norm [])
      from rfl, show dot ([] : List ℚ) [] = 0 from rfl]
    simp

/-- C10 witness: a run whose first pre-good record has the empty vector
establishes dimension 0, keeps at least one record, and reports no
near-clone pair. -/
theorem spec_c10_witness :
    List.find? preGood [glyphE1, glyphE2, glyphA] = some glyphE1 ∧
    (runScan rngZero [glyphE1, glyphE2, glyphA]).dims = some 0 ∧
    1 ≤ (runScan rngZero [glyphE1, glyphE2, glyphA]).total ∧
    nearPairsRun rngZero [glyphE1, glyphE2, glyphA] = [] := by
  have h := spec_c10 rngZero [glyphE1, glyphE2, glyphA] glyphE1 (by decide) (by decide)
  exact ⟨by decide, h.1, h.2.1, h.2.2.2.2.2.2.1⟩

/-- C3 counterexample: the same three records in two orders give
different exact clusters.  With `{x,[1,2]}` first, D = 2 is established
and the two `[1,2,3]` records are dropped, so no cluster is reported;
with it last, D = 3 and the records a, b form a cluster while x is
dropped — so the set of exact clusters is not order-independent,
contradicting the claim. -/
theorem spec_c3_counterexample :
    List.Perm [glyphX2, glyphA, glyphB] [glyphA, glyphB, glyphX2] ∧
    clustersOf (runScan rngZero [glyphX2, glyphA, glyphB]) = [] ∧
    clustersOf (runScan rngZero [glyphA, glyphB, glyphX2]) =
      [[(PyVal.pstr "a", "f1.json"), (PyVal.pstr "b", "f1.json")]] := by
  refine ⟨?_, by decide, by decide⟩
  decide

/-- C3 amended: for two runs over the same multiset of records, in any
order, the results agree PROVIDED every structurally pre-good record has
the same vector length D (so reordering cannot change the established
dimension) and the accepted records carry pairwise distinct ids (so the
seen-pair guard cannot suppress differently across orders): every
exact-index group then holds the same members up to order, and exactly
the same unordered near-duplicate pairs are reported. -/
theorem spec_c3_amended (rng : ℕ → ℚ) (gs gs' : List (Glyph × String)) (D : ℕ)
    (hperm : gs.Perm gs')
    (hshape : ∀ g ∈ gs, preGood g = true → (vecList g).length = D)
    (hids : ((gs.filter (goodAt D)).map (fun g => g.1.id)).Nodup) :
    (∀ h, ((findVals (runScan rng gs).exact h : List (PyVal × String)) :
        Multiset (PyVal × String)) =
      ((findVals (runScan rng gs').exact h : List (PyVal × String)) :
        Multiset (PyVal × String))) ∧
    (∀ x y : Entry,
      ((x, y) ∈ nearPairsRun rng gs ∨ (y, x) ∈ nearPairsRun rng gs) ↔
        ((x, y) ∈ nearPairsRun rng gs' ∨ (y, x) ∈ nearPairsRun rng gs')) := by
  have hshape' : ∀ g ∈ gs', preGood g = true → (vecList g).length = D :=
    fun g hg => hshape g (hperm.mem_iff.mpr hg)
  have hpermF : (gs.filter (goodAt D)).Perm (gs'.filter (goodAt D)) := hperm.filter _
  have hids' : ((gs'.filter (goodAt D)).map (fun g => g.1.id)).Nodup :=
    ((hpermF.map _).nodup_iff).mp hids
  constructor
  · intro h
    obtain ⟨-, -, -, hexact, -⟩ := runScan_char rng gs
    obtain ⟨-, -, -, hexact', -⟩ := runScan_char rng gs'
    rw [hexact h, hexact' h, acceptedSeq_of_shape gs D hshape,
      acceptedSeq_of_shape gs' D hshape']
    exact Multiset.coe_eq_coe.mpr ((hpermF.filter _).map _)
  · intro x y
    rw [nearPairs_char rng gs D hshape hids x y, nearPairs_char rng gs' D hshape' hids' x y]
    have hmemE : ∀ z : Entry, z ∈ acceptedEntries D gs ↔ z ∈ acceptedEntries D gs' := by
      intro z
      exact (hpermF.map entryOf).mem_iff
    have hbase : ∀ z : Entry, z ∈ acceptedEntries D gs →
        basisOf rng gs = basisOf rng gs' := by
      intro z hz
      obtain ⟨g, hg, rfl⟩ := List.mem_map.mp hz
      have hpre : preGood g = true := (goodAt_spec (List.of_mem_filter hg)).1
      have hgm : g ∈ gs := List.mem_of_mem_filter hg
      rw [basisOf_of_shape rng gs D hshape ⟨g, hgm, hpre⟩,
        basisOf_of_shape rng gs' D hshape' ⟨g, hperm.mem_iff.mp hgm, hpre⟩]
    constructor
    · rintro ⟨hsig, hne, hxE, hyE, hnear⟩
      exact ⟨(hbase x hxE) ▸ hsig, hne, (hmemE x).mp hxE, (hmemE y).mp hyE, hnear⟩
    · rintro ⟨hsig, hne, hxE, hyE, hnear⟩
      have hxE0 : x ∈ acceptedEntries D gs := (hmemE x).mpr hxE
      exact ⟨(hbase x hxE0) ▸ hsig, hne, hxE0, (hmemE y).mpr hyE, hnear⟩

/-- C3 witness: a concrete two-record run and its reversal satisfy the
hypotheses, and the theorem yields agreement of clusters and pairs. -/
theorem spec_c3_witness :
    (∀ h, ((findVals (runScan rngZero [glyphU, glyphV]).exact h : List (PyVal × String)) :
        Multiset (PyVal × String)) =
      ((findVals (runScan rngZero [glyphV, glyphU]).exact h : List (PyVal × String)) :
        Multiset (PyVal × String))) ∧
    (∀ x y : Entry,
      ((x, y) ∈ nearPairsRun rngZero [glyphU, glyphV] ∨
          (y, x) ∈ nearPairsRun rngZero [glyphU, glyphV]) ↔
        ((x, y) ∈ nearPairsRun rngZero [glyphV, glyphU] ∨
          (y, x) ∈ nearPairsRun rngZero [glyphV, glyphU])) :=
  spec_c3_amended rngZero [glyphU, glyphV] [glyphV, glyphU] 1
    (by decide) (by decide) (by decide)

